import Mathlib

/-!
Verification of the unistore sharded LSM engine's compaction subsystem.

The definitions below shallowly embed the Go code of `sdb/compaction.go`
(and the `WriteBatch` operations of the engine file) into Lean:

* byte strings become `List Nat`, keys become `Key` (user key plus version),
  with the source ordering: user key ascending, version descending;
* tables become `Table` records exposing the query surface the compaction
  code consumes (id, smallest, biggest, size);
* the `CompactTables` per-key merge loop becomes a fold `ctStep` over the
  merged input entries, producing the list of output tables;
* the change-set applier becomes a state-passing function over an explicit
  engine state.

External collaborators (the badger table builder, `y.Key` comparison,
tombstone bit) and engine code outside the provided sources are modelled
from the specification's contracts; each such definition carries a doc
comment saying so.
-/

namespace Unistore

/-- Lexicographic comparison of byte strings, as `bytes.Compare` does in Go. -/
def bytesCmp : List Nat → List Nat → Ordering
  | [], [] => .eq
  | [], _ :: _ => .lt
  | _ :: _, [] => .gt
  | a :: as, b :: bs =>
    if a < b then .lt else if b < a then .gt else bytesCmp as bs

/-- "Less than or equal" in byte-string order. -/
def bytesLe (a b : List Nat) : Prop := bytesCmp a b = .lt ∨ a = b

/-- A full key: user key plus MVCC version (`y.Key` in the source). -/
structure Key where
  userKey : List Nat
  version : Nat
  deriving DecidableEq, Repr

/-- Modelled from the spec: `y.Key.Compare` orders keys by user key ascending
lexicographically and, among equal user keys, by version descending
(newest first). -/
def keyCmp (a b : Key) : Ordering :=
  match bytesCmp a.userKey b.userKey with
  | .eq => compare b.version a.version
  | o => o

/-- Strict full-key order used for sortedness of merged compaction input. -/
def keyLt (a b : Key) : Prop := keyCmp a b = .lt

instance : DecidablePred (fun p : Key × Key => keyLt p.1 p.2) := by
  intro p
  unfold keyLt
  infer_instance

/-- Modelled from the spec: `meta` carries a tombstone bit (`bitDelete` in
badger's `y` package; the constant itself lives outside the given sources). -/
def bitDelete : Nat := 1

/-- Modelled from the spec: `isDeleted(meta)` tests the tombstone bit of the
meta byte (the helper itself lives in an engine file outside the given
sources). -/
def isDeleted (meta : Nat) : Bool := meta &&& bitDelete ≠ 0

/-- One record of the merged compaction input: full key, meta byte,
user meta and value (`y.Key` plus `y.ValueStruct` in the source). -/
structure Entry where
  userKey : List Nat
  version : Nat
  meta : Nat
  userMeta : List Nat
  value : List Nat
  deriving DecidableEq, Repr

/-- The full key of an entry. -/
def Entry.key (e : Entry) : Key := ⟨e.userKey, e.version⟩

/-- Strict merged-iterator order on entries: user key ascending,
version descending. -/
def entryLt (a b : Entry) : Prop := keyLt a.key b.key

instance : ∀ a b : Entry, Decidable (entryLt a b) := fun a b => by
  unfold entryLt keyLt
  infer_instance

/-- The query surface of an immutable sorted table that the compaction code
consumes: id, smallest and biggest key, and size. -/
structure Table where
  id : Nat
  smallest : Key
  biggest : Key
  size : Int
  deriving DecidableEq, Repr

/-- Modelled from the spec: `Table.HasOverlap(start, end, includeEnd)` reports
whether the table's key range intersects `[start, end]`; with `includeEnd`
true both boundaries count (the implementation lives in badger's sstable
package, an external collaborator). -/
def tableHasOverlap (t : Table) (lo hi : Key) : Bool :=
  keyCmp t.smallest hi ≠ .gt && keyCmp lo t.biggest ≠ .gt

/-- `minSkippedTableSize = 1024 * 1024` from `sdb/compaction.go`. -/
def minSkippedTableSize : Int := 1024 * 1024

/-- A compaction filter decision (`Decision` in `sdb/options.go`). -/
inductive Decision where
  | keep
  | markTombstone
  | drop
  deriving DecidableEq, Repr

/-- A user compaction filter: `Filter(cf, key, value, userMeta) Decision`. -/
def CompactionFilter := Nat → List Nat → List Nat → List Nat → Decision

/-- The fields of `CompactDef` that the compaction executor and job builder
read: column family, level, top/bottom/skipped tables, GC watermark,
overlap flag, optional filter and the output table size cap. -/
structure CompactDef where
  cf : Nat
  level : Nat
  top : List Table
  bot : List Table
  skippedTbls : List Table
  safeTS : Nat
  hasOverlap : Bool
  filter : Option CompactionFilter
  maxTableSize : Int

/-- `CompactDef.fillBottomTables`: each bottom table in the overlap window
goes to `Bot` when some top table overlaps its key range inclusively;
otherwise it is skipped when its size is at least `minSkippedTableSize`,
and put in `Bot` when smaller.  Returns `(Bot, SkippedTbls)` in order. -/
def fillBottomTables (top : List Table) : List Table → List Table × List Table
  | [] => ([], [])
  | t :: rest =>
    let (bt, sk) := fillBottomTables top rest
    if top.any fun topTbl => tableHasOverlap topTbl t.smallest t.biggest then
      (t :: bt, sk)
    else if t.size ≥ minSkippedTableSize then
      (bt, t :: sk)
    else
      (t :: bt, sk)

/-- `CompactDef.moveDown`: true when the job is above level 0 and has no
bottom tables and no skipped tables. -/
def CompactDef.moveDown (cd : CompactDef) : Bool :=
  decide (cd.level > 0) && cd.bot.isEmpty && cd.skippedTbls.isEmpty

/-- `shouldFinishFile` from `sdb/compaction.go`: rotate the output table only
when the last key is non-empty and the current size exceeds the cap. -/
def shouldFinishFile (lastKey : List Nat) (currentSize maxSize : Int) : Bool :=
  if lastKey.isEmpty then false
  else !lastKey.isEmpty && decide (currentSize > maxSize)

/-- `overSkipTables`: drop the leading skipped tables whose biggest key is
strictly below `key`; report whether any were dropped. -/
def overSkipTables (key : Key) : List Table → List Table × Bool
  | [] => ([], false)
  | t :: rest =>
    if keyCmp key t.biggest = .gt then
      ((overSkipTables key rest).1, true)
    else
      (t :: rest, false)

/-- Modelled from the spec: `y.ValueStruct.EncodedSize`, an external badger
helper, abstracted as value length plus user-meta length plus the meta
byte and length byte. -/
def encodedSize (e : Entry) : Int := e.value.length + e.userMeta.length + 2

/-- The per-record size charged against the output table cap:
`int(vs.EncodedSize()) + key.Len()`, with `y.Key.Len` being the user-key
length plus the 8-byte version. -/
def kvSize (e : Entry) : Int := encodedSize e + e.userKey.length + 8

/-- Modelled from the spec: the external sstable builder's size estimate,
abstracted as the sum of the encoded sizes of the entries added so far. -/
def builderEstimate (builder : List Entry) : Int :=
  (builder.map kvSize).sum

/-- The delete-marker substituted by a `MarkTombstone` filter decision:
same key, meta set to the tombstone bit, empty value. -/
def tombstoneOf (e : Entry) : Entry :=
  { userKey := e.userKey, version := e.version, meta := bitDelete,
    userMeta := [], value := [] }

/-- The MVCC-GC emit decision of `CompactTables` for the newest version at or
below `SafeTS` of its user key: a delete marker survives only with
`HasOverlap`; otherwise the installed filter may keep it, convert it to a
tombstone (emitted only with `HasOverlap`), or drop it. -/
def gcEmit (cd : CompactDef) (e : Entry) : Option Entry :=
  if isDeleted e.meta then
    if cd.hasOverlap then some e else none
  else
    match cd.filter with
    | some f =>
      match f cd.cf e.userKey e.value e.userMeta with
      | .keep => some e
      | .markTombstone => if cd.hasOverlap then some (tombstoneOf e) else none
      | .drop => none
    | none => some e

/-- The mutable state of the `CompactTables` loop: the per-file last key, the
cross-file skip key, the open builder's contents, the remaining skipped
tables and the finished output tables. -/
structure CTState where
  lastKey : List Nat
  skipKey : List Nat
  builder : List Entry
  skippedTbls : List Table
  outputs : List (List Entry)
  deriving Repr

/-- The user-key-boundary handling of the `CompactTables` inner loop: on a
user-key change, advance past skipped tables, finish the current output
table when a skipped table was crossed with a non-empty builder or when
`shouldFinishFile` fires, and record the new last key.  An empty builder is
never emitted (the source `continue`s on `builder.Empty()`). -/
def ctBoundary (cd : CompactDef) (s : CTState) (e : Entry) : CTState :=
  if e.userKey ≠ s.lastKey then
    let p := overSkipTables e.key s.skippedTbls
    if (p.2 && !s.builder.isEmpty) ||
        shouldFinishFile s.lastKey (builderEstimate s.builder + kvSize e) cd.maxTableSize then
      { lastKey := e.userKey, skipKey := s.skipKey, builder := [],
        skippedTbls := p.1,
        outputs := s.outputs ++ if s.builder.isEmpty then [] else [s.builder] }
    else
      { s with lastKey := e.userKey, skippedTbls := p.1 }
  else s

/-- The MVCC-GC tail of the `CompactTables` inner loop: a version at or below
`SafeTS` records its user key as the skip key and is emitted according to
`gcEmit`; newer versions are emitted verbatim. -/
def ctGC (cd : CompactDef) (s : CTState) (e : Entry) : CTState :=
  if e.version ≤ cd.safeTS then
    match gcEmit cd e with
    | some e' => { s with skipKey := e.userKey, builder := s.builder ++ [e'] }
    | none => { s with skipKey := e.userKey }
  else
    { s with builder := s.builder ++ [e] }

/-- One iteration of the `CompactTables` per-key loop over the merged input:
records matching the skip key are dropped; otherwise the skip key is
cleared, the user-key boundary is handled, and the GC rules decide the
emission. -/
def ctStep (cd : CompactDef) (s : CTState) (e : Entry) : CTState :=
  if s.skipKey ≠ [] ∧ e.userKey = s.skipKey then s
  else ctGC cd (ctBoundary cd { s with skipKey := [] } e) e

/-- `CompactTables` over the merged input entries: fold the per-key loop and
finish the last open output table. -/
def compactTables (cd : CompactDef) (entries : List Entry) : List (List Entry) :=
  let s := entries.foldl (ctStep cd)
    { lastKey := [], skipKey := [], builder := [], skippedTbls := cd.skippedTbls,
      outputs := [] }
  s.outputs ++ if s.builder.isEmpty then [] else [s.builder]

/-- A `protos.TableCreate` record: id, target cf and level, and the user-key
bounds of the created table. -/
structure TableCreate where
  id : Nat
  cf : Nat
  level : Nat
  smallest : List Nat
  biggest : List Nat
  deriving DecidableEq, Repr

/-- `newTableCreate`: re-tag an existing table for `cf` at `level`. -/
def newTableCreate (t : Table) (cf level : Nat) : TableCreate :=
  { id := t.id, cf := cf, level := level,
    smallest := t.smallest.userKey, biggest := t.biggest.userKey }

/-- A `protos.ShardCompaction` change set: deletions from the two input
levels and the created tables. -/
structure Compaction where
  cf : Nat
  level : Nat
  topDeletes : List Nat
  bottomDeletes : List Nat
  tableCreates : List TableCreate
  deriving DecidableEq, Repr

/-- `runCompactionDef` without the listener/apply tail: builds the
`ShardCompaction` change set.  On a move-down job the top tables are
re-tagged one level deeper without invoking the executor; otherwise the
executor (`compactBuildTables`, abstracted as the `executor` argument)
produces the creates and both input sides are deleted. -/
def runCompactionDef (cf : Nat) (cd : CompactDef)
    (executor : CompactDef → Except Unit (List TableCreate)) :
    Except Unit Compaction :=
  if cd.moveDown then
    .ok { cf := cf, level := cd.level,
          topDeletes := cd.top.map (·.id),
          bottomDeletes := [],
          tableCreates := cd.top.map fun t => newTableCreate t cf (cd.level + 1) }
  else do
    let creates ← executor cd
    .ok { cf := cf, level := cd.level,
          topDeletes := cd.top.map (·.id),
          bottomDeletes := cd.bot.map (·.id),
          tableCreates := creates }

/-- Insert a table into a list sorted by smallest key ascending. -/
def insertTable (t : Table) : List Table → List Table
  | [] => [t]
  | u :: rest =>
    if keyCmp t.smallest u.smallest = .lt then t :: u :: rest
    else u :: insertTable t rest

/-- `sortTables`: sort by smallest key ascending.  The source uses Go's
unstable `sort.Slice`; the order among tables with equal smallest keys is
therefore unspecified and is modelled here by insertion sort. -/
def sortTables (ts : List Table) : List Table := ts.foldr insertTable []

/-- The per-pair condition `assertTablesOrder` enforces on adjacent tables of
a level ≥ 1: the first table's smallest is at most its biggest, and both
the smallest and the biggest keys strictly increase. -/
def tablesOrderPairOk (a b : Table) : Bool :=
  keyCmp a.smallest a.biggest ≠ .gt &&
    keyCmp a.smallest b.smallest = .lt &&
    keyCmp a.biggest b.biggest = .lt

/-- The adjacent-pair scan of `assertTablesOrder`. -/
def tablesChainOk : List Table → Bool
  | a :: b :: rest => tablesOrderPairOk a b && tablesChainOk (b :: rest)
  | _ => true

/-- `assertTablesOrder` as a predicate: `true` means the function returns
normally, `false` means it panics.  Level 0 is never checked. -/
def assertTablesOrderOk (level : Nat) (tables : List Table) : Bool :=
  level == 0 || tablesChainOk tables

/-- Errors of the change-set applier: a create's table file cannot be opened,
or `assertTablesOrder` panicked. -/
inductive ApplyErr where
  | openFailed
  | orderViolation
  deriving DecidableEq, Repr

/-- `sstable.OpenTable` abstracted: look the created table up by id among the
table files on disk. -/
def openTable (disk : List Table) (id : Nat) : Except ApplyErr Table :=
  match disk.find? fun t => t.id == id with
  | some t => .ok t
  | none => .error .openFailed

/-- The create-loop of `compactionUpdateLevelHandler`: open every create
belonging to `cf`, skipping creates of other column families. -/
def openCreates (disk : List Table) (cf : Nat) :
    List TableCreate → Except ApplyErr (List Table)
  | [] => .ok []
  | c :: rest =>
    if c.cf == cf then
      match openTable disk c.id with
      | .error e => .error e
      | .ok t =>
        match openCreates disk cf rest with
        | .error e => .error e
        | .ok ts => .ok (t :: ts)
    else openCreates disk cf rest

/-- Modelled from the spec: `cas_level(old, new)` publishes `new` iff the slot
still equals the snapshot that was read.  `intf` is the slot value written
by a concurrent actor between the read and the compare-and-swap, when any
(pointer identity is abstracted to value equality).  Returns the slot's
content after the operation and whether the swap succeeded. -/
def casLevelHandler (slotRead : List Table) (intf : Option (List Table))
    (newTables : List Table) : List Table × Bool :=
  let cur := intf.getD slotRead
  if cur == slotRead then (newTables, true) else (cur, false)

/-- The engine-visible state the compaction applier manipulates: the manifest
of already-applied change sets, the shard's `compacting` flag, the shared
L0 pool (table ids, newest first) and the per-cf level handlers
(`cfs[cf][level-1]` is the table list of `level`). -/
structure EngineState where
  manifest : List Compaction
  compacting : Bool
  l0 : List Nat
  cfs : List (List (List Table))
  deriving DecidableEq, Repr

/-- The table list currently installed for `(cf, level)`. -/
def EngineState.slot (st : EngineState) (cf level : Nat) : List Table :=
  (st.cfs.getD cf []).getD (level - 1) []

/-- Replace the table list installed for `(cf, level)`. -/
def EngineState.setSlot (st : EngineState) (cf level : Nat)
    (tables : List Table) : EngineState :=
  { st with cfs := st.cfs.set cf ((st.cfs.getD cf []).set (level - 1) tables) }

/-- `compactionUpdateLevelHandler`: open the creates of `cf`, keep the old
tables not listed in `delIDs`, sort by smallest key, run
`assertTablesOrder` (an error models the panic), then compare-and-swap the
new handler into the slot.  The source ignores the CAS result, so the
state is updated with whatever the slot holds after the CAS and no error
is reported for a failed swap. -/
def compactionUpdateLevelHandler (disk : List Table) (intf : Option (List Table))
    (st : EngineState) (cf level : Nat) (creates : List TableCreate)
    (delIDs : List Nat) : Except ApplyErr EngineState :=
  match openCreates disk cf creates with
  | .error e => .error e
  | .ok opened =>
    let kept := (st.slot cf level).filter fun t => !delIDs.contains t.id
    let newTables := sortTables (opened ++ kept)
    if assertTablesOrderOk level newTables then
      .ok (st.setSlot cf level (casLevelHandler (st.slot cf level) intf newTables).1)
    else
      .error .orderViolation

/-- Modelled from the spec: `atomicRemoveL0` removes the `n` compacted L0
tables, which form the tail (oldest end) of the newest-first pool. -/
def atomicRemoveL0 (l0 : List Nat) (n : Nat) : List Nat := l0.take (l0.length - n)

/-- The L0→L1 branch of `applyCompaction`: update level 1 of every column
family, then shrink the L0 pool.  On an update error the partially
installed state is kept, as in the source. -/
def applyCompactionL0 (disk : List Table) (cs : Compaction) :
    EngineState → List Nat → EngineState × Except ApplyErr Unit
  | st, [] => ({ st with l0 := atomicRemoveL0 st.l0 cs.topDeletes.length }, .ok ())
  | st, cf :: rest =>
    match compactionUpdateLevelHandler disk none st cf 1 cs.tableCreates cs.bottomDeletes with
    | .ok st' => applyCompactionL0 disk cs st' rest
    | .error e => (st, .error e)

/-- The two level updates of an L≥1 compaction install: first the source
level (no creates, only the top deletions), then the target level (the
creates and bottom deletions).  An error keeps the partially installed
state, as in the source. -/
def applyCompactionLevels (disk : List Table) (intf1 intf2 : Option (List Table))
    (st1 : EngineState) (cs : Compaction) : EngineState × Except ApplyErr Unit :=
  match compactionUpdateLevelHandler disk intf1 st1 cs.cf cs.level [] cs.topDeletes with
  | .error e => (st1, .error e)
  | .ok st2 =>
    match compactionUpdateLevelHandler disk intf2 st2 cs.cf (cs.level + 1)
        cs.tableCreates cs.bottomDeletes with
    | .error e => (st2, .error e)
    | .ok st3 => (st3, .ok ())

/-- `applyCompaction`: record the change set in the manifest (modelled from
the spec: `manifest.writeChangeSet` reports `errDupChange` for an
already-applied change set, upon which the applier returns success without
touching any state); then install the level updates.  The `compacting`
flag is cleared on every exit path (the deferred `markCompacting(false)`).
`intf1`/`intf2` are the concurrent slot writes, if any, racing the two
level CASes of an L≥1 compaction. -/
def applyCompaction (disk : List Table) (intf1 intf2 : Option (List Table))
    (st : EngineState) (cs : Compaction) : EngineState × Except ApplyErr Unit :=
  if st.manifest.contains cs then
    ({ st with compacting := false }, .ok ())
  else
    let st1 : EngineState := { st with manifest := cs :: st.manifest }
    let r :=
      if cs.level == 0 then
        applyCompactionL0 disk cs st1 (List.range st1.cfs.length)
      else
        applyCompactionLevels disk intf1 intf2 st1 cs
    ({ r.1 with compacting := false }, r.2)

/-- `y.ValueStruct`: meta byte, user meta, value and version. -/
structure ValueStruct where
  meta : Nat
  userMeta : List Nat
  value : List Nat
  version : Nat
  deriving DecidableEq, Repr

/-- Modelled from the spec: `y.ValueStruct.EncodedSize` (external badger
helper), abstracted as value length plus user-meta length plus two bytes
of framing. -/
def valueEncodedSize (v : ValueStruct) : Int := v.value.length + v.userMeta.length + 2

/-- A memtable entry as queued in a `WriteBatch`. -/
structure MemEntry where
  key : List Nat
  value : ValueStruct
  deriving DecidableEq, Repr

/-- Modelled from the spec: `memtable.EstimateNodeSize`, an external constant
charged per queued entry. -/
def estimateNodeSize : Int := 64

/-- `CFConfig` from `sdb/options.go`. -/
structure CFConfig where
  managed : Bool
  deriving DecidableEq, Repr

/-- The engine `WriteBatch`: per-cf queued entries and the size estimate. -/
structure WriteBatch where
  cfConfs : List CFConfig
  entries : List (List MemEntry)
  estimatedSize : Int
  deriving DecidableEq, Repr

/-- Append one entry to a column family and grow the size estimate. -/
def wbAppend (wb : WriteBatch) (cf : Nat) (e : MemEntry) (sizeInc : Int) : WriteBatch :=
  { wb with entries := wb.entries.set cf ((wb.entries.getD cf []) ++ [e]),
            estimatedSize := wb.estimatedSize + sizeInc }

/-- The version-vs-managed-CF validation shared by `Put` and `Delete`:
a managed CF rejects version zero, a non-managed CF rejects a non-zero
version. -/
def wbVersionError (wb : WriteBatch) (cf : Nat) (version : Nat) : Option String :=
  if (wb.cfConfs.getD cf ⟨false⟩).managed then
    if version = 0 then some "version is zero for managed CF" else none
  else
    if version ≠ 0 then some "version is not zero for non-managed CF" else none

/-- `WriteBatch.Put`: validate the version against the CF's managed flag,
then queue the entry and charge key, encoded value and node overhead. -/
def WriteBatch.put (wb : WriteBatch) (cf : Nat) (key : List Nat)
    (val : ValueStruct) : WriteBatch × Option String :=
  match wbVersionError wb cf val.version with
  | some e => (wb, some e)
  | none =>
    (wbAppend wb cf ⟨key, val⟩ (key.length + valueEncodedSize val + estimateNodeSize), none)

/-- `WriteBatch.Delete`: validate the version, then queue a tombstone entry
and charge key and node overhead. -/
def WriteBatch.del (wb : WriteBatch) (cf : Nat) (key : List Nat)
    (version : Nat) : WriteBatch × Option String :=
  match wbVersionError wb cf version with
  | some e => (wb, some e)
  | none =>
    (wbAppend wb cf ⟨key, ⟨bitDelete, [], [], version⟩⟩ (key.length + estimateNodeSize), none)

/-- The planner options consumed by shard scoring. -/
structure PlannerOpt where
  numLevelZeroTables : Nat
  levelOneSize : ℚ
  deriving DecidableEq, Repr

/-- The view of a shard that the planner reads: lifecycle flags, the sizes of
the L0 pool's tables (newest first; `none` when no pool is loaded) and the
per-cf, per-level total sizes (`cfLevelSizes[cf][level-1]`).  Go's float64
arithmetic is abstracted to exact rationals. -/
structure ShardView where
  passive : Bool
  compacting : Bool
  splitting : Bool
  l0Sizes : Option (List ℚ)
  cfLevelSizes : List (List ℚ)
  deriving DecidableEq, Repr

/-- A `CompactionPriority`: chosen cf (−1 means L0→L1), level and score,
together with the scored shard. -/
structure CompactionPriority where
  cf : Int
  level : Nat
  score : ℚ
  shard : ShardView
  deriving DecidableEq, Repr

/-- The per-(cf, level) score candidates of a shard:
`size / (levelOneSize * 10^(level-1))`. -/
def levelScoreList (opt : PlannerOpt) (sh : ShardView) : List (Int × Nat × ℚ) :=
  (sh.cfLevelSizes.enum.map fun p =>
    p.2.enum.map fun q => ((p.1 : Int), q.1 + 1, q.2 / (opt.levelOneSize * 10 ^ q.1))).flatten

/-- Fold of the strict-maximum search in `getCompactionPriority`: a later
candidate replaces the current one only with a strictly greater score. -/
def pickMaxPriority : CompactionPriority → List (Int × Nat × ℚ) → CompactionPriority
  | pri, [] => pri
  | pri, (cf, lvl, sc) :: rest =>
    pickMaxPriority
      (if sc > pri.score then { pri with cf := cf, level := lvl, score := sc } else pri) rest

/-- `getCompactionPriority`: when the L0 pool holds more than
`NumLevelZeroTables` tables the shard scores as an L0→L1 job
(`cf = -1`, `score = sizeScore*0.6 + countScore*0.4`); otherwise the
maximal per-(cf, level) score wins. -/
def getCompactionPriority (opt : PlannerOpt) (sh : ShardView) : CompactionPriority :=
  let base : CompactionPriority := { cf := 0, level := 0, score := 0, shard := sh }
  match sh.l0Sizes with
  | some l0 =>
    if l0.length > opt.numLevelZeroTables then
      { cf := -1, level := 0,
        score := l0.sum * 10 / opt.levelOneSize * (6 / 10) +
          ((l0.length : ℚ) / (opt.numLevelZeroTables : ℚ)) * (4 / 10),
        shard := sh }
    else pickMaxPriority base (levelScoreList opt sh)
  | none => pickMaxPriority base (levelScoreList opt sh)

/-- Score-descending comparison used to order the priority list. -/
def priGe (a b : CompactionPriority) : Prop := b.score ≤ a.score

instance : DecidableRel priGe := fun a b => by
  unfold priGe
  infer_instance

/-- `GetCompactionPriorities`: score every shard that is neither passive nor
currently compacting, keep those with score above 1, and sort by score
descending.  The source's `sort.Slice` is not stable and the `sync.Map`
iteration order is unspecified; both are abstracted (insertion sort over
the given shard list). -/
def getCompactionPriorities (opt : PlannerOpt) (shards : List ShardView) :
    List CompactionPriority :=
  List.insertionSort priGe
    ((shards.filter fun s => !s.passive && !s.compacting).filterMap fun s =>
      let p := getCompactionPriority opt s
      if p.score > 1 then some p else none)

/-- A concrete two-CF batch (managed CF 0, non-managed CF 1). -/
def wbEx : WriteBatch := ⟨[⟨true⟩, ⟨false⟩], [[], []], 0⟩

/-- A job with `SafeTS = 10`, no overlap with lower levels and no filter. -/
def cdNoOverlap : CompactDef :=
  { cf := 0, level := 1, top := [], bot := [], skippedTbls := [],
    safeTS := 10, hasOverlap := false, filter := none, maxTableSize := 1000 }

/-- The same job with `HasOverlap = true`. -/
def cdOverlap : CompactDef :=
  { cdNoOverlap with hasOverlap := true }

/-- Two versions of user key `[1]`, both at or below `SafeTS = 10`; the newest
is a delete marker. -/
def entriesTombNewest : List Entry :=
  [⟨[1], 5, 1, [], []⟩, ⟨[1], 3, 0, [], [9]⟩]

/-- A put at version 8 shadowing a delete marker at version 5, both at or
below `SafeTS = 10`. -/
def entriesTombShadowed : List Entry :=
  [⟨[1], 8, 0, [], [7]⟩, ⟨[1], 5, 1, [], []⟩]

/-- The record stream emitted by the `CompactTables` loop, starting from a
given skip key. -/
def emitted (cd : CompactDef) (skipKey : List Nat) : List Entry → List Entry
  | [] => []
  | e :: rest =>
    if skipKey ≠ [] ∧ e.userKey = skipKey then emitted cd skipKey rest
    else if e.version ≤ cd.safeTS then
      (gcEmit cd e).toList ++ emitted cd e.userKey rest
    else
      e :: emitted cd [] rest

/-- The records accumulated so far: finished tables plus the open builder. -/
def joinP (s : CTState) : List Entry := s.outputs.flatten ++ s.builder

/-- Records of user key `k` at or below the GC watermark. -/
def isLeKey (cd : CompactDef) (k : List Nat) (e : Entry) : Bool :=
  e.userKey == k && decide (e.version ≤ cd.safeTS)

/-- Two put records of user key `[1]` below `SafeTS`. -/
def entriesTwoPuts : List Entry :=
  [⟨[1], 5, 0, [], [2]⟩, ⟨[1], 3, 0, [], [9]⟩]

/-- One output table's user keys all strictly precede another's. -/
def tblBelow (t₁ t₂ : List Entry) : Prop :=
  ∀ e₁ ∈ t₁, ∀ e₂ ∈ t₂, bytesCmp e₁.userKey e₂.userKey = .lt

/-- A job whose output tables rotate after every user key. -/
def cdSmall : CompactDef := { cdOverlap with maxTableSize := 1 }

def tOverlapA : Table := ⟨1, ⟨[0], 0⟩, ⟨[5], 0⟩, 10⟩

def tOverlapB : Table := ⟨2, ⟨[2], 0⟩, ⟨[6], 0⟩, 10⟩

/-- Engine state holding `tOverlapA` alone at level 1 of cf 0. -/
def stC4 : EngineState := ⟨[], false, [], [[[tOverlapA]]]⟩

/-- Existing level-1 table of the C5 scenario. -/
def tblC5A : Table := ⟨5, ⟨[1], 9⟩, ⟨[3], 2⟩, 40⟩

/-- The compaction's created level-2 table (on disk). -/
def tblC5B : Table := ⟨7, ⟨[1], 9⟩, ⟨[3], 2⟩, 50⟩

/-- The table a concurrent writer installs into the level-1 slot between the
applier's read and its compare-and-swap. -/
def tblC5C : Table := ⟨6, ⟨[4], 9⟩, ⟨[5], 2⟩, 30⟩

/-- Engine state before the install: one cf with `[tblC5A]` at level 1 and an
empty level 2. -/
def stC5 : EngineState := ⟨[], true, [], [[[tblC5A], []]]⟩

/-- The change set: delete table 5 from level 1, create table 7 at level 2. -/
def csC5 : Compaction := ⟨0, 1, [5], [], [⟨7, 0, 2, [1], [3]⟩]⟩

instance : IsTotal CompactionPriority priGe :=
  ⟨fun a b => le_total b.score a.score⟩

instance : IsTrans CompactionPriority priGe :=
  ⟨fun _ _ _ hab hbc => le_trans hbc hab⟩

/-- A splitting shard with an over-full L0 pool. -/
def shardSplitting : ShardView :=
  { passive := false, compacting := false, splitting := true,
    l0Sizes := some [10, 10], cfLevelSizes := [] }

def optC8 : PlannerOpt := { numLevelZeroTables := 1, levelOneSize := 10 }

/-! ## Theorems -/

theorem bytesCmp_eq_iff : ∀ {a b : List Nat}, bytesCmp a b = .eq ↔ a = b := by
  intro a
  induction a with
  | nil => intro b; cases b <;> simp [bytesCmp]
  | cons x xs ih =>
    intro b
    cases b with
    | nil => simp [bytesCmp]
    | cons y ys =>
      simp only [bytesCmp]
      by_cases hxy : x < y
      · simp [hxy]
        omega
      · by_cases hyx : y < x
        · simp [hxy, hyx]
          omega
        · have hxyeq : x = y := by omega
          simp [hxy, hyx, hxyeq, ih]

theorem bytesCmp_self (a : List Nat) : bytesCmp a a = .eq :=
  bytesCmp_eq_iff.mpr rfl

theorem bytesCmp_swap : ∀ {a b : List Nat}, bytesCmp a b = .lt ↔ bytesCmp b a = .gt := by
  intro a
  induction a with
  | nil => intro b; cases b <;> simp [bytesCmp]
  | cons x xs ih =>
    intro b
    cases b with
    | nil => simp [bytesCmp]
    | cons y ys =>
      simp only [bytesCmp]
      by_cases hxy : x < y
      · have : ¬ y < x := by omega
        simp [hxy, this]
      · by_cases hyx : y < x
        · simp [hxy, hyx]
        · simp [hxy, hyx, ih]

theorem bytesCmp_lt_trans :
    ∀ {a b c : List Nat}, bytesCmp a b = .lt → bytesCmp b c = .lt → bytesCmp a c = .lt := by
  intro a
  induction a with
  | nil =>
    intro b c hab hbc
    cases b with
    | nil => simpa [bytesCmp] using hbc
    | cons y ys =>
      cases c with
      | nil => simp [bytesCmp] at hbc
      | cons z zs => simp [bytesCmp]
  | cons x xs ih =>
    intro b c hab hbc
    cases b with
    | nil => simp [bytesCmp] at hab
    | cons y ys =>
      cases c with
      | nil => simp [bytesCmp] at hbc
      | cons z zs =>
        simp only [bytesCmp] at hab hbc ⊢
        by_cases hxy : x < y
        · by_cases hyz : y < z
          · have : x < z := by omega
            simp [this]
          · by_cases hzy : z < y
            · simp [hyz, hzy] at hbc
            · have hyzeq : y = z := by omega
              subst hyzeq
              simp [hxy]
        · by_cases hyx : y < x
          · simp [hxy, hyx] at hab
          · have hxyeq : x = y := by omega
            subst hxyeq
            simp only [hxy, if_neg, ite_self] at hab
            by_cases hyz : x < z
            · simp [hyz]
            · by_cases hzy : z < x
              · simp [hyz, hzy] at hbc
              · have : x = z := by omega
                subst this
                simp [hxy] at hab hbc ⊢
                exact ih hab hbc

theorem bytesLe_refl (a : List Nat) : bytesLe a a := Or.inr rfl

theorem bytesLe_trans {a b c : List Nat} (hab : bytesLe a b) (hbc : bytesLe b c) :
    bytesLe a c := by
  rcases hab with hab | hab
  · rcases hbc with hbc | hbc
    · exact Or.inl (bytesCmp_lt_trans hab hbc)
    · subst hbc; exact Or.inl hab
  · subst hab; exact hbc

theorem bytesLe_lt_of_ne {a b : List Nat} (h : bytesLe a b) (hne : a ≠ b) :
    bytesCmp a b = .lt := by
  rcases h with h | h
  · exact h
  · exact absurd h hne

theorem bytesLe_trans_lt {a b c : List Nat} (hab : bytesLe a b) (hbc : bytesCmp b c = .lt) :
    bytesCmp a c = .lt := by
  rcases hab with hab | hab
  · exact bytesCmp_lt_trans hab hbc
  · subst hab; exact hbc

theorem bytesLt_trans_le {a b c : List Nat} (hab : bytesCmp a b = .lt) (hbc : bytesLe b c) :
    bytesCmp a c = .lt := by
  rcases hbc with hbc | hbc
  · exact bytesCmp_lt_trans hab hbc
  · subst hbc; exact hab

theorem bytesCmp_lt_ne {a b : List Nat} (h : bytesCmp a b = .lt) : a ≠ b := by
  intro he
  subst he
  rw [bytesCmp_self] at h
  exact absurd h (by simp)

theorem bytesLe_antisymm {a b : List Nat} (hab : bytesLe a b) (hba : bytesLe b a) : a = b := by
  rcases hab with hab | hab
  · rcases hba with hba | hba
    · exact absurd rfl (bytesCmp_lt_ne (bytesCmp_lt_trans hab hba))
    · exact hba.symm
  · exact hab

theorem bytesCmp_nil_le (a : List Nat) : bytesLe [] a := by
  cases a with
  | nil => exact Or.inr rfl
  | cons x xs => exact Or.inl (by simp [bytesCmp])

theorem keyLt_userKey_le {a b : Key} (h : keyLt a b) : bytesLe a.userKey b.userKey := by
  unfold keyLt keyCmp at h
  rcases hc : bytesCmp a.userKey b.userKey with _ | _ | _ <;> rw [hc] at h
  · exact Or.inl hc
  · exact Or.inr (bytesCmp_eq_iff.mp hc)
  · simp at h

theorem keyLt_version_lt_of_same {a b : Key} (h : keyLt a b)
    (huk : a.userKey = b.userKey) : b.version < a.version := by
  unfold keyLt keyCmp at h
  rw [huk, bytesCmp_self] at h
  simpa using Nat.compare_eq_lt.mp h

example :
    compactTables
      { cf := 0, level := 1, top := [], bot := [], skippedTbls := [],
        safeTS := 10, hasOverlap := true, filter := none, maxTableSize := 1000 }
      [⟨[1], 20, 0, [], [7]⟩, ⟨[1], 5, 0, [], [8]⟩, ⟨[1], 3, 0, [], [9]⟩,
       ⟨[2], 4, 0, [], [6]⟩] =
      [[⟨[1], 20, 0, [], [7]⟩, ⟨[1], 5, 0, [], [8]⟩, ⟨[2], 4, 0, [], [6]⟩]] := by
  decide

example :
    compactTables
      { cf := 0, level := 1, top := [], bot := [], skippedTbls := [],
        safeTS := 40, hasOverlap := false, filter := none, maxTableSize := 1000 }
      [⟨[1], 30, 1, [], []⟩, ⟨[1], 5, 0, [], [9]⟩] = [] := by
  decide

/-- C6: in `fillBottomTables`, an overlap-window bottom table moves to
`SkippedTbls` exactly when no top table overlaps its key range inclusively
and its size is at least `minSkippedTableSize`; every other bottom table
is placed in `Bot`, both in input order. -/
theorem fillBottomTables_spec (top overlapping : List Table) :
    (fillBottomTables top overlapping).2 =
      overlapping.filter (fun t =>
        !(top.any fun topTbl => tableHasOverlap topTbl t.smallest t.biggest) &&
          decide (t.size ≥ minSkippedTableSize)) ∧
    (fillBottomTables top overlapping).1 =
      overlapping.filter (fun t =>
        (top.any fun topTbl => tableHasOverlap topTbl t.smallest t.biggest) ||
          !decide (t.size ≥ minSkippedTableSize)) := by
  induction overlapping with
  | nil => simp [fillBottomTables]
  | cons t rest ih =>
    obtain ⟨ih2, ih1⟩ := ih
    by_cases h1 : (top.any fun topTbl => tableHasOverlap topTbl t.smallest t.biggest) = true
    · simp [fillBottomTables, h1, List.filter_cons, ih1, ih2]
    · by_cases h2 : t.size ≥ minSkippedTableSize
      · simp [fillBottomTables, h1, h2, List.filter_cons, ih1, ih2]
      · simp [fillBottomTables, h1, h2, List.filter_cons, ih1, ih2]

/-- C7: with `Level > 0`, empty `Bot` and empty `SkippedTbls`,
`runCompactionDef` emits the logical-move change set — the creates are
exactly the top tables re-tagged to `Level + 1` with unchanged ids, the
top deletes are those same ids — and the executor is never invoked (the
result is the same for every executor). -/
theorem runCompactionDef_moveDown (cf : Nat) (cd : CompactDef)
    (hl : cd.level > 0) (hb : cd.bot = []) (hs : cd.skippedTbls = [])
    (ex ex' : CompactDef → Except Unit (List TableCreate)) :
    runCompactionDef cf cd ex =
      .ok { cf := cf, level := cd.level,
            topDeletes := cd.top.map (·.id),
            bottomDeletes := [],
            tableCreates := cd.top.map fun t => newTableCreate t cf (cd.level + 1) } ∧
    runCompactionDef cf cd ex = runCompactionDef cf cd ex' ∧
    (cd.top.map fun t => newTableCreate t cf (cd.level + 1)).map
        (fun c => (c.id, c.level)) =
      cd.top.map fun t => (t.id, cd.level + 1) := by
  have hmv : cd.moveDown = true := by
    simp [CompactDef.moveDown, hb, hs, hl]
  refine ⟨?_, ?_, ?_⟩
  · simp [runCompactionDef, hmv]
  · simp [runCompactionDef, hmv]
  · simp [newTableCreate]

/-- Witness for C7 at a concrete job. -/
theorem runCompactionDef_moveDown_witness :
    runCompactionDef 0
      { cf := 0, level := 1,
        top := [⟨42, ⟨[1], 9⟩, ⟨[3], 2⟩, 100⟩], bot := [], skippedTbls := [],
        safeTS := 0, hasOverlap := false, filter := none, maxTableSize := 100 }
      (fun _ => .error ()) =
      .ok { cf := 0, level := 1, topDeletes := [42], bottomDeletes := [],
            tableCreates := [⟨42, 0, 2, [1], [3]⟩] } :=
  (runCompactionDef_moveDown 0 _ (by decide) rfl rfl
    (fun _ => .error ()) (fun _ => .ok [])).1

/-- C10: `WriteBatch.Put` and `WriteBatch.Delete` reject a zero version on a
managed CF and a non-zero version on a non-managed CF, leaving the batch
unchanged; otherwise they append exactly one entry to that CF (leaving the
other CFs untouched) and return nil. -/
theorem writeBatch_put_delete_spec (wb : WriteBatch) (cf : Nat) (key : List Nat)
    (val : ValueStruct) (version : Nat) (hcf : cf < wb.cfConfs.length)
    (hent : cf < wb.entries.length) :
    let managed := (wb.cfConfs.getD cf ⟨false⟩).managed
    let bad : Nat → Prop := fun v => (managed ∧ v = 0) ∨ (¬managed ∧ v ≠ 0)
    (bad val.version → wb.put cf key val = (wb, some (if managed then
        "version is zero for managed CF" else "version is not zero for non-managed CF"))) ∧
    (¬bad val.version →
      (wb.put cf key val).2 = none ∧
      (wb.put cf key val).1.entries.getD cf [] = wb.entries.getD cf [] ++ [⟨key, val⟩] ∧
      ∀ j, j ≠ cf → (wb.put cf key val).1.entries.getD j [] = wb.entries.getD j []) ∧
    (bad version → wb.del cf key version = (wb, some (if managed then
        "version is zero for managed CF" else "version is not zero for non-managed CF"))) ∧
    (¬bad version →
      (wb.del cf key version).2 = none ∧
      (wb.del cf key version).1.entries.getD cf [] =
        wb.entries.getD cf [] ++ [⟨key, ⟨bitDelete, [], [], version⟩⟩] ∧
      ∀ j, j ≠ cf → (wb.del cf key version).1.entries.getD j [] = wb.entries.getD j []) := by
  intro managed bad
  have herr : ∀ v : Nat, bad v → wbVersionError wb cf v = some (if managed then
      "version is zero for managed CF" else "version is not zero for non-managed CF") := by
    intro v hv
    rcases hv with ⟨hm, hv0⟩ | ⟨hm, hv0⟩
    · simp only [wbVersionError]
      rw [if_pos hm, if_pos hv0, if_pos hm]
    · simp only [wbVersionError]
      rw [if_neg hm, if_pos hv0, if_neg hm]
  have hok : ∀ v : Nat, ¬bad v → wbVersionError wb cf v = none := by
    intro v hv
    simp only [wbVersionError]
    by_cases hm : managed
    · rw [if_pos hm]
      by_cases hv0 : v = 0
      · exact absurd (Or.inl ⟨hm, hv0⟩) hv
      · rw [if_neg hv0]
    · rw [if_neg hm]
      by_cases hv0 : v = 0
      · rw [if_neg (by simp [hv0])]
      · exact absurd (Or.inr ⟨hm, hv0⟩) hv
  refine ⟨?_, ?_, ?_, ?_⟩
  · intro hvbad
    simp [WriteBatch.put, herr val.version hvbad]
  · intro hvok
    refine ⟨?_, ?_, ?_⟩
    · simp [WriteBatch.put, hok val.version hvok]
    · simp only [WriteBatch.put, hok val.version hvok, wbAppend]
      rw [List.getD_eq_getElem?_getD, List.getElem?_set_self hent]
      simp [List.getD_eq_getElem?_getD]
    · intro j hj
      simp only [WriteBatch.put, hok val.version hvok, wbAppend]
      rw [List.getD_eq_getElem?_getD, List.getElem?_set_ne (by omega)]
      simp [List.getD_eq_getElem?_getD]
  · intro hvbad
    simp [WriteBatch.del, herr version hvbad]
  · intro hvok
    refine ⟨?_, ?_, ?_⟩
    · simp [WriteBatch.del, hok version hvok]
    · simp only [WriteBatch.del, hok version hvok, wbAppend]
      rw [List.getD_eq_getElem?_getD, List.getElem?_set_self hent]
      simp [List.getD_eq_getElem?_getD]
    · intro j hj
      simp only [WriteBatch.del, hok version hvok, wbAppend]
      rw [List.getD_eq_getElem?_getD, List.getElem?_set_ne (by omega)]
      simp [List.getD_eq_getElem?_getD]

/-- Witness for C10: on the managed CF 0 of `wbEx`, a put at version 7 and a
delete at version 3 both succeed. -/
theorem writeBatch_put_delete_spec_witness :
    0 < wbEx.cfConfs.length ∧ 0 < wbEx.entries.length ∧
    (wbEx.put 0 [1] ⟨0, [], [5], 7⟩).2 = none ∧
    (wbEx.del 0 [1] 3).2 = none := by
  have h := writeBatch_put_delete_spec wbEx 0 [1] ⟨0, [], [5], 7⟩ 3
    (by decide) (by decide)
  exact ⟨by decide, by decide,
    (h.2.1 (by decide)).1, ((h.2.2.2) (by decide)).1⟩

/-- Counterexample to C1 as stated: user key `[1]` has two versions at or
below `SafeTS` in the sorted merged input, but because the newest of them
is a delete marker and `HasOverlap` is false, the compaction emits
nothing — zero versions survive, not exactly one. -/
theorem compactTables_gc_counterexample :
    List.Pairwise entryLt entriesTombNewest ∧
    (entriesTombNewest.filter fun e =>
      e.userKey == [1] && decide (e.version ≤ cdNoOverlap.safeTS)).length = 2 ∧
    compactTables cdNoOverlap entriesTombNewest = [] := by
  refine ⟨?_, by decide, by decide⟩
  simp only [entriesTombNewest, List.pairwise_cons, entryLt, keyLt, keyCmp, Entry.key,
    bytesCmp]
  refine ⟨fun b hb => ?_, by simp⟩
  simp at hb
  subst hb
  decide

/-- Counterexample to C2 as stated: the input entry `([1], 5)` carries the
delete bit and is at or below `SafeTS`, and `HasOverlap` is true, yet it
is not emitted — it is shadowed by the newer version 8, which sets the
skip key first.  C2's "emitted iff HasOverlap" fails for delete markers
that are not the newest version at or below `SafeTS`. -/
theorem compactTables_tombstone_counterexample :
    List.Pairwise entryLt entriesTombShadowed ∧
    isDeleted (Entry.meta ⟨[1], 5, 1, [], []⟩) = true ∧
    cdOverlap.hasOverlap = true ∧
    (⟨[1], 5, 1, [], []⟩ : Entry) ∈ entriesTombShadowed ∧
    compactTables cdOverlap entriesTombShadowed = [[⟨[1], 8, 0, [], [7]⟩]] := by
  refine ⟨?_, by decide, by decide, by decide, by decide⟩
  simp only [entriesTombShadowed, List.pairwise_cons, entryLt, keyLt, keyCmp, Entry.key,
    bytesCmp]
  refine ⟨fun b hb => ?_, by simp⟩
  simp at hb
  subst hb
  decide

theorem emitted_cons (cd : CompactDef) (sk : List Nat) (e : Entry) (rest : List Entry) :
    emitted cd sk (e :: rest) =
      if sk ≠ [] ∧ e.userKey = sk then emitted cd sk rest
      else if e.version ≤ cd.safeTS then
        (gcEmit cd e).toList ++ emitted cd e.userKey rest
      else
        e :: emitted cd [] rest := rfl

theorem ctBoundary_joinP (cd : CompactDef) (s : CTState) (e : Entry) :
    joinP (ctBoundary cd s e) = joinP s := by
  unfold ctBoundary joinP
  by_cases h1 : e.userKey ≠ s.lastKey
  · rw [if_pos h1]
    dsimp only
    by_cases h2 : ((overSkipTables e.key s.skippedTbls).2 && !s.builder.isEmpty ||
        shouldFinishFile s.lastKey (builderEstimate s.builder + kvSize e)
          cd.maxTableSize) = true
    · rw [if_pos h2]
      by_cases hb : s.builder.isEmpty
      · simp [List.isEmpty_iff.mp hb]
      · simp [hb]
    · rw [if_neg h2]
  · rw [if_neg h1]

theorem ctBoundary_skipKey (cd : CompactDef) (s : CTState) (e : Entry) :
    (ctBoundary cd s e).skipKey = s.skipKey := by
  unfold ctBoundary
  by_cases h1 : e.userKey ≠ s.lastKey
  · rw [if_pos h1]
    dsimp only
    by_cases h2 : ((overSkipTables e.key s.skippedTbls).2 && !s.builder.isEmpty ||
        shouldFinishFile s.lastKey (builderEstimate s.builder + kvSize e)
          cd.maxTableSize) = true
    · rw [if_pos h2]
    · rw [if_neg h2]
  · rw [if_neg h1]

theorem ctGC_joinP (cd : CompactDef) (s : CTState) (e : Entry) :
    joinP (ctGC cd s e) =
      joinP s ++ (if e.version ≤ cd.safeTS then (gcEmit cd e).toList else [e]) := by
  unfold ctGC joinP
  by_cases h : e.version ≤ cd.safeTS
  · rw [if_pos h, if_pos h]
    rcases hg : gcEmit cd e with _ | e' <;> simp [hg]
  · rw [if_neg h, if_neg h]
    simp

theorem ctGC_skipKey (cd : CompactDef) (s : CTState) (e : Entry) :
    (ctGC cd s e).skipKey =
      if e.version ≤ cd.safeTS then e.userKey else s.skipKey := by
  unfold ctGC
  by_cases h : e.version ≤ cd.safeTS
  · rw [if_pos h, if_pos h]
    rcases gcEmit cd e <;> rfl
  · rw [if_neg h, if_neg h]

theorem ctStep_joinP (cd : CompactDef) (s : CTState) (e : Entry) :
    joinP (ctStep cd s e) =
      joinP s ++
        (if s.skipKey ≠ [] ∧ e.userKey = s.skipKey then []
         else if e.version ≤ cd.safeTS then (gcEmit cd e).toList else [e]) := by
  unfold ctStep
  by_cases h : s.skipKey ≠ [] ∧ e.userKey = s.skipKey
  · rw [if_pos h, if_pos h]
    simp
  · rw [if_neg h, if_neg h, ctGC_joinP, ctBoundary_joinP]
    rfl

theorem ctStep_skipKey (cd : CompactDef) (s : CTState) (e : Entry) :
    (ctStep cd s e).skipKey =
      if s.skipKey ≠ [] ∧ e.userKey = s.skipKey then s.skipKey
      else if e.version ≤ cd.safeTS then e.userKey else [] := by
  unfold ctStep
  by_cases h : s.skipKey ≠ [] ∧ e.userKey = s.skipKey
  · rw [if_pos h, if_pos h]
  · rw [if_neg h, if_neg h, ctGC_skipKey, ctBoundary_skipKey]

theorem foldl_ctStep_joinP (cd : CompactDef) :
    ∀ (entries : List Entry) (s : CTState),
      joinP (entries.foldl (ctStep cd) s) = joinP s ++ emitted cd s.skipKey entries := by
  intro entries
  induction entries with
  | nil => intro s; simp [emitted]
  | cons e rest ih =>
    intro s
    rw [List.foldl_cons, ih, ctStep_joinP, ctStep_skipKey, emitted_cons]
    by_cases h1 : s.skipKey ≠ [] ∧ e.userKey = s.skipKey
    · rw [if_pos h1, if_pos h1, if_pos h1]
      simp
    · rw [if_neg h1, if_neg h1, if_neg h1]
      by_cases h2 : e.version ≤ cd.safeTS
      · rw [if_pos h2, if_pos h2, if_pos h2]
        simp
      · rw [if_neg h2, if_neg h2, if_neg h2]
        simp

/-- Bridge: the flattened output tables of `CompactTables` are exactly the
emission stream. -/
theorem compactTables_flatten (cd : CompactDef) (entries : List Entry) :
    (compactTables cd entries).flatten = emitted cd [] entries := by
  unfold compactTables
  have h := foldl_ctStep_joinP cd entries
    { lastKey := [], skipKey := [], builder := [], skippedTbls := cd.skippedTbls,
      outputs := [] }
  set s := entries.foldl (ctStep cd)
    { lastKey := [], skipKey := [], builder := [], skippedTbls := cd.skippedTbls,
      outputs := [] } with hs
  unfold joinP at h
  simp only at h
  by_cases hb : s.builder.isEmpty
  · simp only [hb, if_pos]
    simp only [List.isEmpty_iff.mp hb, List.append_nil] at h
    simpa using h
  · simp only [hb]
    simpa using h

theorem gcEmit_some_userKey {cd : CompactDef} {e e' : Entry}
    (h : gcEmit cd e = some e') : e'.userKey = e.userKey ∧ e'.version = e.version := by
  unfold gcEmit at h
  by_cases hd : isDeleted e.meta
  · rw [if_pos hd] at h
    by_cases ho : cd.hasOverlap
    · rw [if_pos ho] at h
      cases h
      exact ⟨rfl, rfl⟩
    · rw [if_neg ho] at h
      cases h
  · rw [if_neg hd] at h
    rcases hf : cd.filter with _ | f
    · rw [hf] at h
      cases h
      exact ⟨rfl, rfl⟩
    · rw [hf] at h
      rcases hd : f cd.cf e.userKey e.value e.userMeta with _ | _ | _ <;>
        simp only [hd] at h
      · cases h
        exact ⟨rfl, rfl⟩
      · by_cases ho : cd.hasOverlap
        · rw [if_pos ho] at h
          cases h
          exact ⟨rfl, rfl⟩
        · rw [if_neg ho] at h
          cases h
      · cases h

/-- While the skip key is set, the loop drops exactly the leading run of
matching user keys. -/
theorem emitted_skip (cd : CompactDef) (sk : List Nat) (hsk : sk ≠ []) :
    ∀ entries : List Entry,
      emitted cd sk entries = emitted cd [] (entries.dropWhile fun e => e.userKey == sk) := by
  intro entries
  induction entries with
  | nil => simp [emitted]
  | cons e rest ih =>
    by_cases h : e.userKey = sk
    · rw [emitted_cons, if_pos ⟨hsk, h⟩, ih, List.dropWhile_cons_of_pos (by simpa using h)]
    · have h0 : ¬(([] : List Nat) ≠ [] ∧ e.userKey = ([] : List Nat)) := by simp
      rw [emitted_cons, if_neg (fun hc => h hc.2),
        List.dropWhile_cons_of_neg (by simpa using h), emitted_cons, if_neg h0]

/-- In a sorted input, once a user key's run ends nothing later carries that
user key again. -/
theorem no_key_after_dropWhile {e : Entry} {rest : List Entry}
    (hp : List.Pairwise entryLt (e :: rest)) :
    ∀ x ∈ rest.dropWhile (fun y => y.userKey == e.userKey), x.userKey ≠ e.userKey := by
  intro x hx
  rcases hdw : rest.dropWhile fun y => y.userKey == e.userKey with _ | ⟨d, ds⟩
  · rw [hdw] at hx
    cases hx
  · rw [hdw] at hx
    have hdne : d.userKey ≠ e.userKey := by
      have h := List.head?_dropWhile_not (fun y => y.userKey == e.userKey) rest
      rw [hdw] at h
      simpa using h
    have hsub : List.Sublist (d :: ds) rest := by
      rw [← hdw]
      exact List.dropWhile_sublist _
    rcases List.mem_cons.mp hx with hxd | hxds
    · subst hxd
      exact hdne
    · intro hxk
      have hpd : List.Pairwise entryLt (d :: ds) := (List.pairwise_cons.mp hp).2.sublist hsub
      have hdx : entryLt d x := (List.pairwise_cons.mp hpd).1 x hxds
      have hed : entryLt e d := (List.pairwise_cons.mp hp).1 d (hsub.subset (by simp))
      have h1 : bytesLe e.userKey d.userKey := keyLt_userKey_le hed
      have h2 : bytesLe d.userKey x.userKey := keyLt_userKey_le hdx
      rw [hxk] at h2
      exact hdne (bytesLe_antisymm h2 h1)

theorem filter_dropWhile_other {cd : CompactDef} {k uk : List Nat} (hne : uk ≠ k)
    (rest : List Entry) :
    rest.filter (isLeKey cd k) =
      (rest.dropWhile fun y => y.userKey == uk).filter (isLeKey cd k) := by
  conv_lhs => rw [← List.takeWhile_append_dropWhile (p := fun y => y.userKey == uk) (l := rest)]
  rw [List.filter_append]
  have h : (rest.takeWhile fun y => y.userKey == uk).filter (isLeKey cd k) = [] := by
    rw [List.filter_eq_nil_iff]
    intro a ha
    have hm := List.mem_takeWhile_imp ha
    simp only [beq_iff_eq] at hm
    simp [isLeKey, hm, hne]
  rw [h, List.nil_append]

theorem gcEmit_toList_filter_ne {cd : CompactDef} {k : List Nat} {e : Entry}
    (hne : e.userKey ≠ k) :
    (gcEmit cd e).toList.filter (isLeKey cd k) = [] := by
  rw [List.filter_eq_nil_iff]
  intro a ha
  rcases hge : gcEmit cd e with _ | e'
  · rw [hge] at ha
    cases ha
  · rw [hge] at ha
    simp only [Option.toList_some, List.mem_singleton] at ha
    subst ha
    have h1 := (gcEmit_some_userKey hge).1
    simp [isLeKey, h1, hne]

/-- Per-key GC characterization: in a sorted merged input, the emitted
records of user key `k` at or below `SafeTS` are exactly the result of
the GC emit decision applied to the newest such input record. -/
theorem emitted_filter_leKey (cd : CompactDef) (k : List Nat) (hk : k ≠ []) :
    ∀ (n : Nat) (entries : List Entry), entries.length ≤ n →
      List.Pairwise entryLt entries →
      (emitted cd [] entries).filter (isLeKey cd k) =
        ((entries.filter (isLeKey cd k)).head?.bind (gcEmit cd)).toList := by
  intro n
  induction n with
  | zero =>
    intro entries hlen _
    rw [List.length_eq_zero.mp (Nat.le_zero.mp hlen)]
    simp [emitted]
  | succ m ih =>
    intro entries hlen hp
    rcases entries with _ | ⟨e, rest⟩
    · simp [emitted]
    · have hlenr : rest.length ≤ m := by
        simp only [List.length_cons] at hlen
        omega
      have hpr : List.Pairwise entryLt rest := (List.pairwise_cons.mp hp).2
      rw [emitted_cons, if_neg (by simp)]
      by_cases hv : e.version ≤ cd.safeTS
      · rw [if_pos hv]
        by_cases hek : e.userKey = []
        · -- an empty user key leaves the skip key unset, and cannot equal k
          have hnk : isLeKey cd k e = false := by
            have hkne : ¬e.userKey = k := by
              rw [hek]
              exact fun h => hk h.symm
            simp [isLeKey, hkne]
          rw [hek, List.filter_append, gcEmit_toList_filter_ne (hek ▸ fun h => hk h.symm),
            List.nil_append, ih rest hlenr hpr, List.filter_cons_of_neg (by simp [hnk])]
        · rw [emitted_skip cd e.userKey hek rest, List.filter_append]
          have hsub : List.Sublist (rest.dropWhile fun y => y.userKey == e.userKey) rest :=
            List.dropWhile_sublist _
          have hlen2 : (rest.dropWhile fun y => y.userKey == e.userKey).length ≤ m :=
            Nat.le_trans hsub.length_le hlenr
          have hp2 : List.Pairwise entryLt (rest.dropWhile fun y => y.userKey == e.userKey) :=
            hpr.sublist hsub
          rw [ih _ hlen2 hp2]
          by_cases hekk : e.userKey = k
          · -- e is the newest version of k at or below SafeTS
            have hnock : ((rest.dropWhile fun y => y.userKey == e.userKey).filter
                (isLeKey cd k)) = [] := by
              rw [List.filter_eq_nil_iff]
              intro a ha
              have hne := no_key_after_dropWhile hp a ha
              rw [hekk] at hne
              simp [isLeKey, hne]
            have hgk : (gcEmit cd e).toList.filter (isLeKey cd k) = (gcEmit cd e).toList := by
              rw [List.filter_eq_self]
              intro a ha
              rcases hge : gcEmit cd e with _ | e'
              · rw [hge] at ha
                cases ha
              · rw [hge] at ha
                simp only [Option.toList_some, List.mem_singleton] at ha
                subst ha
                obtain ⟨h1, h2⟩ := gcEmit_some_userKey hge
                simp [isLeKey, h1, h2, hekk, hv]
            rw [hgk, hnock, List.filter_cons_of_pos (by simp [isLeKey, hekk, hv])]
            simp
          · -- e belongs to another user key
            rw [gcEmit_toList_filter_ne hekk, List.nil_append,
              ← filter_dropWhile_other hekk rest,
              List.filter_cons_of_neg (by simp [isLeKey, hekk])]
      · rw [if_neg hv]
        have hnk : isLeKey cd k e = false := by
          simp [isLeKey, hv]
        rw [List.filter_cons_of_neg (by simp [hnk]), ih rest hlenr hpr,
          List.filter_cons_of_neg (by simp [hnk])]

/-- C1 (amended): for any user key, the output records at or below `SafeTS`
are exactly `gcEmit` of the newest such input version — at most one
record, carrying the newest version; exactly one unless that newest
version is a delete marker with `HasOverlap = false` or the installed
filter drops or elides it. -/
theorem compactTables_gc_soundness (cd : CompactDef) (entries : List Entry)
    (k : List Nat) (hk : k ≠ []) (hsort : List.Pairwise entryLt entries)
    (e₀ : Entry) (hhead : (entries.filter (isLeKey cd k)).head? = some e₀) :
    (compactTables cd entries).flatten.filter (isLeKey cd k) = (gcEmit cd e₀).toList ∧
    ((compactTables cd entries).flatten.filter (isLeKey cd k)).length ≤ 1 ∧
    (∀ e' ∈ (compactTables cd entries).flatten.filter (isLeKey cd k),
      e'.userKey = e₀.userKey ∧ e'.version = e₀.version) ∧
    ((gcEmit cd e₀).isSome →
      ((compactTables cd entries).flatten.filter (isLeKey cd k)).length = 1) := by
  have hmain := emitted_filter_leKey cd k hk entries.length entries (Nat.le_refl _) hsort
  rw [compactTables_flatten, hmain, hhead]
  refine ⟨rfl, ?_, ?_, ?_⟩
  · show (gcEmit cd e₀).toList.length ≤ 1
    rcases gcEmit cd e₀ with _ | e' <;> simp
  · intro e' he'
    have he2 : e' ∈ (gcEmit cd e₀).toList := he'
    rcases hge : gcEmit cd e₀ with _ | e''
    · rw [hge] at he2
      cases he2
    · rw [hge] at he2
      simp only [Option.toList_some, List.mem_singleton] at he2
      subst he2
      exact gcEmit_some_userKey hge
  · intro hs
    show (gcEmit cd e₀).toList.length = 1
    rcases hge : gcEmit cd e₀ with _ | e''
    · rw [hge] at hs
      cases hs
    · rfl

/-- Witness for C1 (amended): with two puts below `SafeTS` and no filter,
exactly the newest survives. -/
theorem compactTables_gc_soundness_witness :
    (compactTables cdNoOverlap entriesTwoPuts).flatten.filter
        (isLeKey cdNoOverlap [1]) =
      (gcEmit cdNoOverlap ⟨[1], 5, 0, [], [2]⟩).toList :=
  (compactTables_gc_soundness cdNoOverlap entriesTwoPuts [1] (by decide)
    (by
      refine List.pairwise_cons.mpr ⟨?_, ?_⟩
      · intro b hb
        simp only [entriesTwoPuts, List.mem_singleton] at hb
        subst hb
        decide
      · simp)
    ⟨[1], 5, 0, [], [2]⟩ (by decide)).1

/-- C2 (amended): when the newest input version of a user key at or below
`SafeTS` carries the delete bit, the output records of that user key at or
below `SafeTS` are exactly that delete marker when `HasOverlap` is true
(emitted once, all older versions dropped) and empty when `HasOverlap` is
false.  Delete markers that are not the newest version at or below
`SafeTS` of their user key are never emitted. -/
theorem compactTables_tombstone_elision (cd : CompactDef) (entries : List Entry)
    (k : List Nat) (hk : k ≠ []) (hsort : List.Pairwise entryLt entries)
    (e₀ : Entry) (hhead : (entries.filter (isLeKey cd k)).head? = some e₀)
    (hdel : isDeleted e₀.meta = true) :
    (compactTables cd entries).flatten.filter (isLeKey cd k) =
      if cd.hasOverlap then [e₀] else [] := by
  have hmain := emitted_filter_leKey cd k hk entries.length entries (Nat.le_refl _) hsort
  rw [compactTables_flatten, hmain, hhead]
  simp only [Option.some_bind, gcEmit, if_pos hdel]
  by_cases ho : cd.hasOverlap
  · rw [if_pos ho, if_pos ho]
    rfl
  · rw [if_neg ho, if_neg ho]
    rfl

/-- Witness for C2 (amended): the delete marker of `entriesTombNewest` is the
newest version below `SafeTS`; with overlap it survives alone. -/
theorem compactTables_tombstone_elision_witness :
    (compactTables cdOverlap entriesTombNewest).flatten.filter
        (isLeKey cdOverlap [1]) =
      if cdOverlap.hasOverlap then [⟨[1], 5, 1, [], []⟩] else [] :=
  compactTables_tombstone_elision cdOverlap entriesTombNewest [1] (by decide)
    (by
      refine List.pairwise_cons.mpr ⟨?_, ?_⟩
      · intro b hb
        simp only [entriesTombNewest, List.mem_singleton] at hb
        subst hb
        decide
      · simp)
    ⟨[1], 5, 1, [], []⟩ (by decide) (by decide)

theorem ctStep_eq_not_skip (cd : CompactDef) (s : CTState) (e : Entry)
    (h : ¬(s.skipKey ≠ [] ∧ e.userKey = s.skipKey)) :
    ctStep cd s e = ctGC cd (ctBoundary cd { s with skipKey := [] } e) e := by
  unfold ctStep
  rw [if_neg h]

theorem ctStep_eq_skip (cd : CompactDef) (s : CTState) (e : Entry)
    (h : s.skipKey ≠ [] ∧ e.userKey = s.skipKey) :
    ctStep cd s e = s := by
  unfold ctStep
  rw [if_pos h]

theorem ctBoundary_struct (cd : CompactDef) (s : CTState) (e : Entry) :
    ((ctBoundary cd s e).lastKey = s.lastKey ∧ e.userKey = s.lastKey ∧
      (ctBoundary cd s e).builder = s.builder ∧ (ctBoundary cd s e).outputs = s.outputs) ∨
    (e.userKey ≠ s.lastKey ∧ (ctBoundary cd s e).lastKey = e.userKey ∧
      (((ctBoundary cd s e).builder = s.builder ∧ (ctBoundary cd s e).outputs = s.outputs) ∨
       ((ctBoundary cd s e).builder = [] ∧
        (ctBoundary cd s e).outputs =
          s.outputs ++ if s.builder.isEmpty then [] else [s.builder]))) := by
  unfold ctBoundary
  by_cases h1 : e.userKey ≠ s.lastKey
  · rw [if_pos h1]
    dsimp only
    by_cases h2 : ((overSkipTables e.key s.skippedTbls).2 && !s.builder.isEmpty ||
        shouldFinishFile s.lastKey (builderEstimate s.builder + kvSize e)
          cd.maxTableSize) = true
    · rw [if_pos h2]
      exact Or.inr ⟨h1, rfl, Or.inr ⟨rfl, rfl⟩⟩
    · rw [if_neg h2]
      exact Or.inr ⟨h1, rfl, Or.inl ⟨rfl, rfl⟩⟩
  · rw [if_neg h1]
    push_neg at h1
    exact Or.inl ⟨rfl, h1, rfl, rfl⟩

theorem ctGC_struct (cd : CompactDef) (s : CTState) (e : Entry) :
    (ctGC cd s e).outputs = s.outputs ∧ (ctGC cd s e).lastKey = s.lastKey ∧
    ((ctGC cd s e).builder = s.builder ∨
      ∃ e', e'.userKey = e.userKey ∧ (ctGC cd s e).builder = s.builder ++ [e']) := by
  unfold ctGC
  by_cases h : e.version ≤ cd.safeTS
  · rw [if_pos h]
    rcases hge : gcEmit cd e with _ | e'
    · exact ⟨rfl, rfl, Or.inl rfl⟩
    · exact ⟨rfl, rfl, Or.inr ⟨e', (gcEmit_some_userKey hge).1, rfl⟩⟩
  · rw [if_neg h]
    exact ⟨rfl, rfl, Or.inr ⟨e, rfl, rfl⟩⟩

/-- Invariant of the `CompactTables` loop: finished tables are pairwise
user-key-disjoint and strictly precede the open builder, whose keys are at
most the file's last key; everything already finished strictly precedes
the remaining input, and the last key is at most the remaining input. -/
theorem ctFold_disjoint (cd : CompactDef) :
    ∀ (entries : List Entry) (s : CTState),
      List.Pairwise entryLt entries →
      List.Pairwise tblBelow s.outputs →
      (∀ t ∈ s.outputs, tblBelow t s.builder) →
      (∀ b ∈ s.builder, bytesLe b.userKey s.lastKey) →
      (∀ t ∈ s.outputs, ∀ x ∈ t, ∀ r ∈ entries, bytesCmp x.userKey r.userKey = .lt) →
      (∀ r ∈ entries, bytesLe s.lastKey r.userKey) →
      List.Pairwise tblBelow ((entries.foldl (ctStep cd) s).outputs) ∧
      (∀ t ∈ (entries.foldl (ctStep cd) s).outputs,
        tblBelow t (entries.foldl (ctStep cd) s).builder) := by
  intro entries
  induction entries with
  | nil =>
    intro s _ h1 h2 _ _ _
    exact ⟨h1, h2⟩
  | cons e rest ih =>
    intro s hp h1 h2 h3 h4 h5
    have hpr := (List.pairwise_cons.mp hp).2
    have heLe : ∀ r ∈ rest, bytesLe e.userKey r.userKey := fun r hr =>
      keyLt_userKey_le ((List.pairwise_cons.mp hp).1 r hr)
    have h5e : bytesLe s.lastKey e.userKey := h5 e (List.mem_cons_self e rest)
    rw [List.foldl_cons]
    by_cases hskip : s.skipKey ≠ [] ∧ e.userKey = s.skipKey
    · rw [ctStep_eq_skip cd s e hskip]
      exact ih s hpr h1 h2 h3
        (fun t ht x hx r hr => h4 t ht x hx r (List.mem_cons_of_mem e hr))
        (fun r hr => h5 r (List.mem_cons_of_mem e hr))
    · rw [ctStep_eq_not_skip cd s e hskip]
      set sB := ctBoundary cd { s with skipKey := [] } e with hsB
      obtain ⟨hgo, hgl, hgb⟩ := ctGC_struct cd sB e
      set sG := ctGC cd sB e with hsG
      rcases ctBoundary_struct cd { s with skipKey := [] } e with
        ⟨hbl, hbe, hbb, hbo⟩ | ⟨hbne, hbl, hbrest⟩
      · -- same user key as the file's last key: no boundary action
        simp only at hbl hbe hbb hbo
        have i1 : List.Pairwise tblBelow sG.outputs := by
          rw [hgo, hbo]; exact h1
        have i2 : ∀ t ∈ sG.outputs, tblBelow t sG.builder := by
          intro t ht x hx b hb
          rw [hgo, hbo] at ht
          rcases hgb with hsame | ⟨e', he', happ⟩
          · rw [hsame, hbb] at hb
            exact h2 t ht x hx b hb
          · rw [happ, hbb] at hb
            rcases List.mem_append.mp hb with hb | hb
            · exact h2 t ht x hx b hb
            · rw [List.mem_singleton] at hb
              subst hb
              rw [he', hbe]
              have := h4 t ht x hx e (List.mem_cons_self e rest)
              rwa [hbe] at this
        have i3 : ∀ b ∈ sG.builder, bytesLe b.userKey sG.lastKey := by
          intro b hb
          rw [hgl, hbl]
          rcases hgb with hsame | ⟨e', he', happ⟩
          · rw [hsame, hbb] at hb
            exact h3 b hb
          · rw [happ, hbb] at hb
            rcases List.mem_append.mp hb with hb | hb
            · exact h3 b hb
            · rw [List.mem_singleton] at hb
              subst hb
              rw [he', hbe]
              exact bytesLe_refl _
        have i4 : ∀ t ∈ sG.outputs, ∀ x ∈ t, ∀ r ∈ rest,
            bytesCmp x.userKey r.userKey = .lt := by
          intro t ht x hx r hr
          rw [hgo, hbo] at ht
          exact h4 t ht x hx r (List.mem_cons_of_mem e hr)
        have i5 : ∀ r ∈ rest, bytesLe sG.lastKey r.userKey := by
          intro r hr
          rw [hgl, hbl]
          exact h5 r (List.mem_cons_of_mem e hr)
        exact ih sG hpr i1 i2 i3 i4 i5
      · -- user-key boundary
        simp only at hbne hbl
        have hlt : bytesCmp s.lastKey e.userKey = .lt :=
          bytesLe_lt_of_ne h5e (Ne.symm hbne)
        rcases hbrest with ⟨hbb, hbo⟩ | ⟨hbb, hbo⟩
        · -- no file rotation
          simp only at hbb hbo
          have i1 : List.Pairwise tblBelow sG.outputs := by
            rw [hgo, hbo]; exact h1
          have i2 : ∀ t ∈ sG.outputs, tblBelow t sG.builder := by
            intro t ht x hx b hb
            rw [hgo, hbo] at ht
            rcases hgb with hsame | ⟨e', he', happ⟩
            · rw [hsame, hbb] at hb
              exact h2 t ht x hx b hb
            · rw [happ, hbb] at hb
              rcases List.mem_append.mp hb with hb | hb
              · exact h2 t ht x hx b hb
              · rw [List.mem_singleton] at hb
                subst hb
                rw [he']
                exact h4 t ht x hx e (List.mem_cons_self e rest)
          have i3 : ∀ b ∈ sG.builder, bytesLe b.userKey sG.lastKey := by
            intro b hb
            rw [hgl, hbl]
            rcases hgb with hsame | ⟨e', he', happ⟩
            · rw [hsame, hbb] at hb
              exact bytesLe_trans (h3 b hb) h5e
            · rw [happ, hbb] at hb
              rcases List.mem_append.mp hb with hb | hb
              · exact bytesLe_trans (h3 b hb) h5e
              · rw [List.mem_singleton] at hb
                subst hb
                rw [he']
                exact bytesLe_refl _
          have i4 : ∀ t ∈ sG.outputs, ∀ x ∈ t, ∀ r ∈ rest,
              bytesCmp x.userKey r.userKey = .lt := by
            intro t ht x hx r hr
            rw [hgo, hbo] at ht
            exact h4 t ht x hx r (List.mem_cons_of_mem e hr)
          have i5 : ∀ r ∈ rest, bytesLe sG.lastKey r.userKey := by
            intro r hr
            rw [hgl, hbl]
            exact heLe r hr
          exact ih sG hpr i1 i2 i3 i4 i5
        · -- the current file is finished
          simp only at hbb hbo
          have houts : ∀ t ∈ sG.outputs, t ∈ s.outputs ∨
              (¬s.builder.isEmpty ∧ t = s.builder) := by
            intro t ht
            rw [hgo, hbo] at ht
            rcases List.mem_append.mp ht with ht | ht
            · exact Or.inl ht
            · by_cases hemp : s.builder.isEmpty
              · rw [if_pos hemp] at ht
                cases ht
              · rw [if_neg hemp, List.mem_singleton] at ht
                exact Or.inr ⟨hemp, ht⟩
          have hbelow : ∀ t ∈ sG.outputs, ∀ x ∈ t, bytesCmp x.userKey e.userKey = .lt := by
            intro t ht x hx
            rcases houts t ht with ht | ⟨_, ht⟩
            · exact h4 t ht x hx e (List.mem_cons_self e rest)
            · subst ht
              exact bytesLe_trans_lt (h3 x hx) hlt
          have i1 : List.Pairwise tblBelow sG.outputs := by
            rw [hgo, hbo]
            by_cases hemp : s.builder.isEmpty
            · rw [if_pos hemp, List.append_nil]
              exact h1
            · rw [if_neg hemp]
              rw [List.pairwise_append]
              refine ⟨h1, List.pairwise_singleton _ _, ?_⟩
              intro t ht t' ht'
              rw [List.mem_singleton] at ht'
              subst ht'
              exact h2 t ht
          have i2 : ∀ t ∈ sG.outputs, tblBelow t sG.builder := by
            intro t ht x hx b hb
            rcases hgb with hsame | ⟨e', he', happ⟩
            · rw [hsame, hbb] at hb
              cases hb
            · rw [happ, hbb, List.nil_append, List.mem_singleton] at hb
              subst hb
              rw [he']
              exact hbelow t ht x hx
          have i3 : ∀ b ∈ sG.builder, bytesLe b.userKey sG.lastKey := by
            intro b hb
            rw [hgl, hbl]
            rcases hgb with hsame | ⟨e', he', happ⟩
            · rw [hsame, hbb] at hb
              cases hb
            · rw [happ, hbb, List.nil_append, List.mem_singleton] at hb
              subst hb
              rw [he']
              exact bytesLe_refl _
          have i4 : ∀ t ∈ sG.outputs, ∀ x ∈ t, ∀ r ∈ rest,
              bytesCmp x.userKey r.userKey = .lt := by
            intro t ht x hx r hr
            exact bytesLt_trans_le (hbelow t ht x hx) (heLe r hr)
          have i5 : ∀ r ∈ rest, bytesLe sG.lastKey r.userKey := by
            intro r hr
            rw [hgl, hbl]
            exact heLe r hr
          exact ih sG hpr i1 i2 i3 i4 i5

/-- C3: `shouldFinishFile` is false whenever the last key is empty or the
size is within the cap, and consequently no two output tables of one
`CompactTables` call contain the same user key. -/
theorem compactTables_no_shared_userKey (cd : CompactDef) :
    (∀ (lastKey : List Nat) (currentSize maxSize : Int),
      lastKey = [] ∨ currentSize ≤ maxSize →
      shouldFinishFile lastKey currentSize maxSize = false) ∧
    (∀ entries : List Entry, List.Pairwise entryLt entries →
      List.Pairwise (fun t₁ t₂ => ∀ e₁ ∈ t₁, ∀ e₂ ∈ t₂, e₁.userKey ≠ e₂.userKey)
        (compactTables cd entries)) := by
  constructor
  · intro lastKey currentSize maxSize h
    rcases h with h | h
    · subst h
      rfl
    · unfold shouldFinishFile
      by_cases hl : lastKey.isEmpty
      · rw [if_pos hl]
      · rw [if_neg hl]
        simp [hl, not_lt.mpr h]
  · intro entries hsort
    unfold compactTables
    dsimp only
    set s := entries.foldl (ctStep cd)
      { lastKey := [], skipKey := [], builder := [], skippedTbls := cd.skippedTbls,
        outputs := [] } with hs
    obtain ⟨H1, H2⟩ := ctFold_disjoint cd entries
      { lastKey := [], skipKey := [], builder := [], skippedTbls := cd.skippedTbls,
        outputs := [] } hsort (List.Pairwise.nil)
      (by intro t ht; cases ht) (by intro b hb; cases hb)
      (by intro t ht; cases ht) (by intro r _; exact bytesCmp_nil_le _)
    have himp : ∀ t₁ t₂, tblBelow t₁ t₂ →
        ∀ e₁ ∈ t₁, ∀ e₂ ∈ t₂, e₁.userKey ≠ e₂.userKey := by
      intro t₁ t₂ hb e₁ he₁ e₂ he₂
      exact bytesCmp_lt_ne (hb e₁ he₁ e₂ he₂)
    by_cases hemp : s.builder.isEmpty
    · rw [if_pos hemp, List.append_nil]
      exact H1.imp fun h => himp _ _ h
    · rw [if_neg hemp]
      rw [List.pairwise_append]
      refine ⟨H1.imp fun h => himp _ _ h, List.pairwise_singleton _ _, ?_⟩
      intro t ht t' ht'
      rw [List.mem_singleton] at ht'
      subst ht'
      exact fun e₁ he₁ e₂ he₂ => bytesCmp_lt_ne (H2 t ht e₁ he₁ e₂ he₂)

example :
    compactTables cdSmall [⟨[1], 20, 0, [], [7]⟩, ⟨[2], 20, 0, [], [8]⟩] =
      [[⟨[1], 20, 0, [], [7]⟩], [⟨[2], 20, 0, [], [8]⟩]] := by
  decide

/-- Witness for C3: a two-key input under a 1-byte table cap splits into two
tables, which share no user key. -/
theorem compactTables_no_shared_userKey_witness :
    shouldFinishFile [] 5 1 = false ∧
    List.Pairwise (fun t₁ t₂ => ∀ e₁ ∈ t₁, ∀ e₂ ∈ t₂, e₁.userKey ≠ e₂.userKey)
      (compactTables cdSmall [⟨[1], 20, 0, [], [7]⟩, ⟨[2], 20, 0, [], [8]⟩]) :=
  ⟨(compactTables_no_shared_userKey cdSmall).1 [] 5 1 (Or.inl rfl),
   (compactTables_no_shared_userKey cdSmall).2 _
    (by
      refine List.pairwise_cons.mpr ⟨?_, ?_⟩
      · intro b hb
        rw [List.mem_singleton] at hb
        subst hb
        decide
      · simp)⟩

/-- Counterexample to C4 as stated: installing a create whose range overlaps
the existing level-1 table succeeds — `assertTablesOrder` does not panic —
and leaves level 1 holding two tables that overlap in user-key range
(`tables[1].smallest = [2] < [5] = tables[0].biggest`, violating
`tables[i].biggest < tables[i+1].smallest`).  The assertion only checks
that the smallest keys and the biggest keys each strictly increase, not
range disjointness. -/
theorem assertTablesOrder_counterexample :
    assertTablesOrderOk 1 [tOverlapA, tOverlapB] = true ∧
    bytesCmp tOverlapB.smallest.userKey tOverlapA.biggest.userKey = .lt ∧
    compactionUpdateLevelHandler [tOverlapB] none stC4 0 1 [⟨2, 0, 1, [2], [6]⟩] [] =
      .ok (stC4.setSlot 0 1 [tOverlapA, tOverlapB]) := by
  refine ⟨by decide, by decide, rfl⟩

theorem tablesChainOk_iff : ∀ ts : List Table,
    tablesChainOk ts = true ↔ List.Chain' (fun a b => tablesOrderPairOk a b = true) ts := by
  intro ts
  match ts with
  | [] => simp [tablesChainOk]
  | [a] => simp [tablesChainOk]
  | a :: b :: rest =>
    rw [tablesChainOk, List.chain'_cons, Bool.and_eq_true, tablesChainOk_iff (b :: rest)]

theorem slot_setSlot (st : EngineState) (cf level : Nat) (ts : List Table)
    (hcf : cf < st.cfs.length) (hlv : level - 1 < (st.cfs.getD cf []).length) :
    (st.setSlot cf level ts).slot cf level = ts := by
  unfold EngineState.setSlot EngineState.slot
  simp only
  set X := (st.cfs.getD cf []).set (level - 1) ts with hX
  have h1 : (st.cfs.set cf X).getD cf [] = X := by
    rw [List.getD_eq_getElem?_getD, List.getElem?_set_self hcf, Option.getD_some]
  rw [h1, hX, List.getD_eq_getElem?_getD, List.getElem?_set_self hlv, Option.getD_some]

/-- C4 (amended): `assertTablesOrder` returns normally at a level ≥ 1 exactly
when, for each adjacent pair, the first table's smallest key is at most
its biggest and both the smallest and the biggest keys strictly increase;
a compaction install that completes without panicking therefore leaves
each updated level in this strict order.  Range disjointness
(`tables[i].biggest < tables[i+1].smallest`) is not checked. -/
theorem assertTablesOrder_install (level : Nat) (tables : List Table) :
    (assertTablesOrderOk level tables = true ↔
      (level = 0 ∨ List.Chain' (fun a b => tablesOrderPairOk a b = true) tables)) ∧
    (∀ (disk : List Table) (st : EngineState) (cf : Nat) (creates : List TableCreate)
        (delIDs : List Nat) (st' : EngineState),
      level ≠ 0 → cf < st.cfs.length → level - 1 < (st.cfs.getD cf []).length →
      compactionUpdateLevelHandler disk none st cf level creates delIDs = .ok st' →
      List.Chain' (fun a b => tablesOrderPairOk a b = true) (st'.slot cf level)) := by
  constructor
  · unfold assertTablesOrderOk
    rw [Bool.or_eq_true, beq_iff_eq, tablesChainOk_iff]
  · intro disk st cf creates delIDs st' hlvl hcf hlv happly
    unfold compactionUpdateLevelHandler at happly
    rcases hoc : openCreates disk cf creates with _ | opened
    · rw [hoc] at happly
      cases happly
    · rw [hoc] at happly
      dsimp only at happly
      by_cases hass : assertTablesOrderOk level
          (sortTables (opened ++ (st.slot cf level).filter fun t => !delIDs.contains t.id)) = true
      · rw [if_pos hass] at happly
        cases happly
        rw [slot_setSlot st cf level _ hcf hlv]
        unfold casLevelHandler
        simp only [Option.getD_none, beq_self_eq_true, if_pos]
        unfold assertTablesOrderOk at hass
        rw [Bool.or_eq_true, beq_iff_eq] at hass
        rcases hass with hass | hass
        · exact absurd hass hlvl
        · exact (tablesChainOk_iff _).mp hass
      · rw [if_neg hass] at happly
        cases happly

/-- Witness for C4 (amended): installing one create into an empty level 1
succeeds and leaves the level strictly ordered. -/
theorem assertTablesOrder_install_witness :
    (assertTablesOrderOk 1 [tOverlapA] = true ↔
      ((1 : Nat) = 0 ∨ List.Chain' (fun a b => tablesOrderPairOk a b = true) [tOverlapA])) ∧
    List.Chain' (fun a b => tablesOrderPairOk a b = true)
      ((EngineState.mk [] false [] [[[]]]).setSlot 0 1
          (casLevelHandler [] none (sortTables ([tOverlapA] ++ []))).1 |>.slot 0 1) := by
  refine ⟨(assertTablesOrder_install 1 [tOverlapA]).1, ?_⟩
  have h := (assertTablesOrder_install 1 (sortTables [tOverlapA])).2 [tOverlapA]
    (EngineState.mk [] false [] [[[]]]) 0 [⟨1, 0, 1, [0], [5]⟩] []
    ((EngineState.mk [] false [] [[[]]]).setSlot 0 1
      (casLevelHandler [] none (sortTables ([tOverlapA] ++ []))).1)
    (by decide) (by decide) (by decide) (by rfl)
  exact h

theorem slot_setSlot_ne (st : EngineState) (cf level level' : Nat) (ts : List Table)
    (h : level - 1 ≠ level' - 1) :
    (st.setSlot cf level ts).slot cf level' = st.slot cf level' := by
  unfold EngineState.setSlot EngineState.slot
  simp only
  by_cases hcf : cf < st.cfs.length
  · set X := (st.cfs.getD cf []).set (level - 1) ts with hX
    have h1 : (st.cfs.set cf X).getD cf [] = X := by
      rw [List.getD_eq_getElem?_getD, List.getElem?_set_self hcf, Option.getD_some]
    rw [h1, hX, List.getD_eq_getElem?_getD, List.getElem?_set_ne h,
      ← List.getD_eq_getElem?_getD]
  · rw [List.set_eq_of_length_le (Nat.le_of_not_lt hcf)]

theorem setSlot_cfs_length (st : EngineState) (cf level : Nat) (ts : List Table) :
    (st.setSlot cf level ts).cfs.length = st.cfs.length := by
  unfold EngineState.setSlot
  simp

theorem setSlot_inner_length (st : EngineState) (cf level : Nat) (ts : List Table)
    (hcf : cf < st.cfs.length) :
    ((st.setSlot cf level ts).cfs.getD cf []).length = (st.cfs.getD cf []).length := by
  unfold EngineState.setSlot
  simp only
  rw [List.getD_eq_getElem?_getD, List.getElem?_set_self hcf, Option.getD_some,
    List.length_set]

/-- The result of a level update on two states with equal slot contents: the
same error, or the same new slot value installed into each state. -/
theorem updateLevelHandler_congr_slot (disk : List Table) (intf : Option (List Table))
    (creates : List TableCreate) (delIDs : List Nat) (cf level : Nat)
    (stA stB : EngineState) (hslot : stA.slot cf level = stB.slot cf level) :
    (∃ e, compactionUpdateLevelHandler disk intf stA cf level creates delIDs = .error e ∧
          compactionUpdateLevelHandler disk intf stB cf level creates delIDs = .error e) ∨
    (∃ ts, compactionUpdateLevelHandler disk intf stA cf level creates delIDs =
        .ok (stA.setSlot cf level ts) ∧
      compactionUpdateLevelHandler disk intf stB cf level creates delIDs =
        .ok (stB.setSlot cf level ts)) := by
  unfold compactionUpdateLevelHandler
  rcases hoc : openCreates disk cf creates with e | opened
  · exact Or.inl ⟨e, rfl, rfl⟩
  · dsimp only
    rw [hslot]
    by_cases hass : assertTablesOrderOk level
        (sortTables (opened ++ (stB.slot cf level).filter fun t => !delIDs.contains t.id)) = true
    · rw [if_pos hass, if_pos hass]
      exact Or.inr ⟨_, rfl, rfl⟩
    · rw [if_neg hass, if_neg hass]
      exact Or.inl ⟨.orderViolation, rfl, rfl⟩

/-- The interference value can change which slot content ends up installed,
but never whether the update succeeds: the CAS result is discarded. -/
theorem updateLevelHandler_intf_shape (disk : List Table) (intf : Option (List Table))
    (st : EngineState) (cf level : Nat) (creates : List TableCreate) (delIDs : List Nat) :
    (∃ e, compactionUpdateLevelHandler disk intf st cf level creates delIDs = .error e ∧
          compactionUpdateLevelHandler disk none st cf level creates delIDs = .error e) ∨
    (∃ ts ts', compactionUpdateLevelHandler disk intf st cf level creates delIDs =
        .ok (st.setSlot cf level ts) ∧
      compactionUpdateLevelHandler disk none st cf level creates delIDs =
        .ok (st.setSlot cf level ts')) := by
  unfold compactionUpdateLevelHandler
  rcases hoc : openCreates disk cf creates with e | opened
  · exact Or.inl ⟨e, rfl, rfl⟩
  · dsimp only
    by_cases hass : assertTablesOrderOk level
        (sortTables (opened ++ (st.slot cf level).filter fun t => !delIDs.contains t.id)) = true
    · rw [if_pos hass, if_pos hass]
      exact Or.inr ⟨_, _, rfl, rfl⟩
    · rw [if_neg hass, if_neg hass]
      exact Or.inl ⟨.orderViolation, rfl, rfl⟩

theorem applyCompaction_dup (disk : List Table) (intf1 intf2 : Option (List Table))
    (st : EngineState) (cs : Compaction) (hdup : st.manifest.contains cs = true) :
    applyCompaction disk intf1 intf2 st cs = ({ st with compacting := false }, .ok ()) := by
  unfold applyCompaction
  rw [if_pos hdup]

theorem applyCompaction_eq_levels (disk : List Table) (intf1 intf2 : Option (List Table))
    (st : EngineState) (cs : Compaction)
    (hdup : ¬st.manifest.contains cs = true) (hlvl : cs.level ≠ 0) :
    applyCompaction disk intf1 intf2 st cs =
      ({ (applyCompactionLevels disk intf1 intf2
            { st with manifest := cs :: st.manifest } cs).1 with compacting := false },
       (applyCompactionLevels disk intf1 intf2
            { st with manifest := cs :: st.manifest } cs).2) := by
  unfold applyCompaction
  rw [if_neg hdup]
  dsimp only
  rw [if_neg (show ¬((cs.level == 0) = true) by simpa using hlvl)]

/-- C5 (amended): the applier ignores the CAS result.  For an L≥1 change set,
whatever concurrent write `intf1` makes the first level's CAS fail, the
job is not aborted: the error outcome and the level+1 slot of the
resulting state are the same as without any interference. -/
theorem applyCompaction_cas_ignored (disk : List Table) (intf1 intf2 : Option (List Table))
    (st : EngineState) (cs : Compaction) (hlvl : cs.level ≠ 0)
    (hcf : cs.cf < st.cfs.length)
    (hlv2 : cs.level < (st.cfs.getD cs.cf []).length) :
    (applyCompaction disk intf1 intf2 st cs).2 =
      (applyCompaction disk none intf2 st cs).2 ∧
    (applyCompaction disk intf1 intf2 st cs).1.slot cs.cf (cs.level + 1) =
      (applyCompaction disk none intf2 st cs).1.slot cs.cf (cs.level + 1) := by
  by_cases hdup : st.manifest.contains cs = true
  · rw [applyCompaction_dup disk intf1 intf2 st cs hdup,
      applyCompaction_dup disk none intf2 st cs hdup]
    exact ⟨rfl, rfl⟩
  · rw [applyCompaction_eq_levels disk intf1 intf2 st cs hdup hlvl,
      applyCompaction_eq_levels disk none intf2 st cs hdup hlvl]
    dsimp only
    set st1 : EngineState := { st with manifest := cs :: st.manifest } with hst1
    have hcfs1 : st1.cfs = st.cfs := by rw [hst1]
    have hA : (applyCompactionLevels disk intf1 intf2 st1 cs).2 =
        (applyCompactionLevels disk none intf2 st1 cs).2 ∧
        (applyCompactionLevels disk intf1 intf2 st1 cs).1.slot cs.cf (cs.level + 1) =
        (applyCompactionLevels disk none intf2 st1 cs).1.slot cs.cf (cs.level + 1) := by
      unfold applyCompactionLevels
      have hidx : cs.level - 1 ≠ cs.level + 1 - 1 := by omega
      rcases updateLevelHandler_intf_shape disk intf1 st1 cs.cf cs.level [] cs.topDeletes with
        ⟨e, ha, hb⟩ | ⟨ts, ts', ha, hb⟩
      · rw [ha, hb]
        exact ⟨rfl, rfl⟩
      · rw [ha, hb]
        dsimp only
        set stA := st1.setSlot cs.cf cs.level ts with hstA
        set stB := st1.setSlot cs.cf cs.level ts' with hstB
        have hslotAB : stA.slot cs.cf (cs.level + 1) = stB.slot cs.cf (cs.level + 1) := by
          rw [hstA, hstB, slot_setSlot_ne st1 _ _ _ _ hidx, slot_setSlot_ne st1 _ _ _ _ hidx]
        rcases updateLevelHandler_congr_slot disk intf2 cs.tableCreates cs.bottomDeletes
            cs.cf (cs.level + 1) stA stB hslotAB with ⟨e, ha2, hb2⟩ | ⟨Y, ha2, hb2⟩
        · rw [ha2, hb2]
          exact ⟨rfl, hslotAB⟩
        · rw [ha2, hb2]
          dsimp only
          refine ⟨rfl, ?_⟩
          have hcfA : cs.cf < stA.cfs.length := by
            rw [hstA, setSlot_cfs_length]
            exact hcf
          have hcfB : cs.cf < stB.cfs.length := by
            rw [hstB, setSlot_cfs_length]
            exact hcf
          have hlvA : cs.level + 1 - 1 < (stA.cfs.getD cs.cf []).length := by
            rw [hstA, setSlot_inner_length st1 _ _ _ (by rw [hcfs1]; exact hcf), hcfs1]
            omega
          have hlvB : cs.level + 1 - 1 < (stB.cfs.getD cs.cf []).length := by
            rw [hstB, setSlot_inner_length st1 _ _ _ (by rw [hcfs1]; exact hcf), hcfs1]
            omega
          rw [slot_setSlot stA _ _ _ hcfA hlvA, slot_setSlot stB _ _ _ hcfB hlvB]
    exact ⟨hA.1, hA.2⟩

/-- Counterexample to C5 as stated: during this install the level-1
compare-and-swap fails (a concurrent writer changed the slot), yet the
applier returns success and still installs the level-2 create — the job
is not aborted and part of the change set is installed. -/
theorem applyCompaction_cas_failure_counterexample :
    casLevelHandler (stC5.slot 0 1) (some [tblC5C]) [] = ([tblC5C], false) ∧
    (applyCompaction [tblC5B] (some [tblC5C]) none stC5 csC5).2 = Except.ok () ∧
    (applyCompaction [tblC5B] (some [tblC5C]) none stC5 csC5).1.slot 0 2 = [tblC5B] ∧
    stC5.slot 0 2 = [] :=
  ⟨rfl, rfl, rfl, rfl⟩

/-- Witness for C5 (amended) at the concrete interference scenario. -/
theorem applyCompaction_cas_ignored_witness :
    (applyCompaction [tblC5B] (some [tblC5C]) none stC5 csC5).2 =
      (applyCompaction [tblC5B] none none stC5 csC5).2 ∧
    (applyCompaction [tblC5B] (some [tblC5C]) none stC5 csC5).1.slot 0 2 =
      (applyCompaction [tblC5B] none none stC5 csC5).1.slot 0 2 :=
  applyCompaction_cas_ignored [tblC5B] (some [tblC5C]) none stC5 csC5
    (by decide) (by decide) (by decide)

theorem setSlot_manifest (st : EngineState) (cf level : Nat) (ts : List Table) :
    (st.setSlot cf level ts).manifest = st.manifest := rfl

theorem updateLevelHandler_manifest {disk : List Table} {intf : Option (List Table)}
    {st : EngineState} {cf level : Nat} {creates : List TableCreate} {delIDs : List Nat}
    {st' : EngineState}
    (h : compactionUpdateLevelHandler disk intf st cf level creates delIDs = .ok st') :
    st'.manifest = st.manifest := by
  unfold compactionUpdateLevelHandler at h
  rcases hoc : openCreates disk cf creates with e | opened
  · rw [hoc] at h
    cases h
  · rw [hoc] at h
    dsimp only at h
    by_cases hass : assertTablesOrderOk level
        (sortTables (opened ++ (st.slot cf level).filter fun t => !delIDs.contains t.id)) = true
    · rw [if_pos hass] at h
      cases h
      rfl
    · rw [if_neg hass] at h
      cases h

theorem applyCompactionL0_manifest (disk : List Table) (cs : Compaction) :
    ∀ (cfList : List Nat) (st : EngineState),
      (applyCompactionL0 disk cs st cfList).1.manifest = st.manifest := by
  intro cfList
  induction cfList with
  | nil => intro st; rfl
  | cons cf rest ih =>
    intro st
    unfold applyCompactionL0
    rcases hupd : compactionUpdateLevelHandler disk none st cf 1 cs.tableCreates
        cs.bottomDeletes with e | st'
    · rfl
    · rw [ih st', updateLevelHandler_manifest hupd]

theorem applyCompactionLevels_manifest (disk : List Table)
    (intf1 intf2 : Option (List Table)) (st1 : EngineState) (cs : Compaction) :
    (applyCompactionLevels disk intf1 intf2 st1 cs).1.manifest = st1.manifest := by
  unfold applyCompactionLevels
  rcases h1 : compactionUpdateLevelHandler disk intf1 st1 cs.cf cs.level [] cs.topDeletes
    with e | st2
  · rfl
  · dsimp only
    rcases h2 : compactionUpdateLevelHandler disk intf2 st2 cs.cf (cs.level + 1)
        cs.tableCreates cs.bottomDeletes with e | st3
    · dsimp only
      exact updateLevelHandler_manifest h1
    · dsimp only
      rw [updateLevelHandler_manifest h2, updateLevelHandler_manifest h1]

theorem applyCompaction_compacting (disk : List Table) (intf1 intf2 : Option (List Table))
    (st : EngineState) (cs : Compaction) :
    (applyCompaction disk intf1 intf2 st cs).1.compacting = false := by
  unfold applyCompaction
  by_cases hdup : st.manifest.contains cs = true
  · rw [if_pos hdup]
  · rw [if_neg hdup]

theorem applyCompaction_manifest_contains (disk : List Table)
    (intf1 intf2 : Option (List Table)) (st : EngineState) (cs : Compaction) :
    (applyCompaction disk intf1 intf2 st cs).1.manifest.contains cs = true := by
  unfold applyCompaction
  by_cases hdup : st.manifest.contains cs = true
  · rw [if_pos hdup]
    exact hdup
  · rw [if_neg hdup]
    dsimp only
    by_cases hl0 : (cs.level == 0) = true
    · rw [if_pos hl0, applyCompactionL0_manifest]
      simp
    · rw [if_neg hl0, applyCompactionLevels_manifest]
      simp

theorem engineState_eta_compacting (st : EngineState) (h : st.compacting = false) :
    ({ st with compacting := false } : EngineState) = st := by
  cases st with
  | mk m c l0 cfs =>
    simp only at h
    subst h
    rfl

/-- C9: applying the same compaction change set twice equals applying it
once — the duplicate application detects the already-recorded change set
in the manifest, returns success, and leaves the whole engine state
(manifest, `compacting` flag, L0 pool and every level handler) unchanged. -/
theorem applyCompaction_idempotent (disk : List Table) (st : EngineState) (cs : Compaction) :
    applyCompaction disk none none (applyCompaction disk none none st cs).1 cs =
      ((applyCompaction disk none none st cs).1, .ok ()) := by
  rw [applyCompaction_dup disk none none (applyCompaction disk none none st cs).1 cs
    (applyCompaction_manifest_contains disk none none st cs),
    engineState_eta_compacting _ (applyCompaction_compacting disk none none st cs)]

/-- Counterexample to C8 as stated: `GetCompactionPriorities` only filters
passive and currently-compacting shards; a splitting shard with score
above 1 is still returned (splitting is checked later, in
`CompactShard`).  Go's `sort.Slice` is also not stable, so the tie-break
clause does not hold either. -/
theorem getCompactionPriorities_splitting_counterexample :
    shardSplitting.splitting = true ∧
    (getCompactionPriorities optC8 [shardSplitting]).length = 1 := by
  refine ⟨rfl, ?_⟩
  unfold getCompactionPriorities
  rw [(List.perm_insertionSort priGe _).length_eq]
  have hflt : ([shardSplitting].filter fun s => !s.passive && !s.compacting) =
      [shardSplitting] := rfl
  rw [hflt]
  have hsc : (getCompactionPriority optC8 shardSplitting).score > 1 := by
    unfold getCompactionPriority shardSplitting optC8
    norm_num
  simp only [List.filterMap_cons, List.filterMap_nil]
  rw [if_pos hsc]
  rfl

/-- C8 (amended): `GetCompactionPriorities` returns exactly the shards that
are neither passive nor currently compacting and whose score exceeds 1
(splitting shards are not excluded here), ordered by score descending;
the order among equal scores is unspecified (`sort.Slice` is unstable and
the shard-map iteration order is arbitrary). -/
theorem getCompactionPriorities_spec (opt : PlannerOpt) (shards : List ShardView) :
    (getCompactionPriorities opt shards).Perm
      ((shards.filter fun s => !s.passive && !s.compacting).filterMap fun s =>
        let p := getCompactionPriority opt s
        if p.score > 1 then some p else none) ∧
    (getCompactionPriorities opt shards).Sorted priGe :=
  ⟨List.perm_insertionSort _ _, List.sorted_insertionSort _ _⟩

end Unistore

